import Mathlib

/-!
A shallow embedding of the solving engine of the `kenken_solver` repository:
the group candidate generation and filtering of `src/kk_group.rs`, the
position blacklist of `src/kk_black_list.rs` (the repository also carries a
verbatim copy named `src/kk_block_list.rs`; one embedding serves both), and
the propagation loop and recursive solver of `src/kk_puzzle.rs`.

Rust `usize` values stay far below `2 ^ 64` everywhere the solver touches
them (digits, board positions, list lengths), so they are embedded as `Nat`;
the one place overflow semantics matters (parsing, where a failed
`parse::<usize>()` is replaced by `usize::MAX`) is modelled explicitly.
`HashSet<usize>` becomes `Finset Nat` and the blacklist's
`HashMap<usize, HashSet<usize>>` becomes a total function `Nat → Finset Nat`
(a missing key reads as the empty set, exactly as `get_position_black_list`
treats it).  A `Vec<usize>` indexing `v[i]` that the source only executes in
bounds is embedded as `List.getD i 0`; out-of-bounds indexing that would
panic in Rust is noted at each definition.
-/

namespace KenkenSolver

/-- The blacklist data of `kk_black_list.rs`: for every board position the
set of digits proven impossible there. -/
abbrev BlackList := Nat → Finset Nat

/-- `BlackList::new` (kk_black_list.rs 19-23): no blacklisted digit for any
position. -/
def BlackList.new : BlackList := fun _ => ∅

/-- `BlackList::get_position_black_list` (kk_black_list.rs 27-33): the set
stored for `position`, the empty set when none is stored. -/
def BlackList.get_position_black_list (bl : BlackList) (position : Nat) : Finset Nat :=
  bl position

/-- The nine cells `row..row+9` scanned along the row of `position`, where
`row = position - position % 10` (kk_black_list.rs 78, kk_group.rs 235). -/
def row_cells (position : Nat) : List Nat :=
  List.range' (position - position % 10) 9 1

/-- The nine cells `(column..90).step_by(10)` scanned along the column of
`position`, where `column = position % 10` (kk_black_list.rs 72,
kk_group.rs 236). -/
def col_cells (position : Nat) : List Nat :=
  List.range' (position % 10) 9 10

/-- `BlackList::insert_position_black_list` (kk_black_list.rs 62-92): pick
the column line when `positions[0]` and `positions[1]` share a column and
the row line otherwise, drop the group's own positions, and union `digits`
into the stored set of every remaining cell of that line.  The Rust read
`positions[1]` panics when the group has fewer than two positions; the
embedding totalises it with `List.getD` (that read is proven in bounds on
the solver's call path). -/
def BlackList.insert_position_black_list (bl : BlackList) (positions : List Nat)
    (digits : Finset Nat) : BlackList :=
  let positions_to_update :=
    if positions.getD 0 0 % 10 = positions.getD 1 0 % 10 then
      (col_cells (positions.getD 0 0)).filter (fun p => decide (p ∉ positions))
    else
      (row_cells (positions.getD 0 0)).filter (fun p => decide (p ∉ positions))
  fun p => if p ∈ positions_to_update then digits ∪ bl p else bl p

/-- `BlackList::check_options_and_update_black_list` (kk_black_list.rs
38-58): when no option after the first holds a digit outside the first
option's digit set, insert that digit set for the group's line and report
`true`; otherwise leave the blacklist alone and report `false`.  The Rust
read `options[0]` panics on an empty option list; the embedding totalises
it with `List.getD` (the caller guarantees at least two options). -/
def BlackList.check_options_and_update_black_list (bl : BlackList) (positions : List Nat)
    (options : List (List Nat)) : Bool × BlackList :=
  let check_digits : Finset Nat := (options.getD 0 []).toFinset
  if (options.drop 1).all (fun option => option.all (fun digit => decide (digit ∈ check_digits))) then
    (true, bl.insert_position_black_list positions check_digits)
  else
    (false, bl)

/-- The struct `Group` of kk_group.rs 32-40. -/
structure Group where
  result : Nat
  operation : Char
  positions : List Nat
  options : List (List Nat)
  is_one_dimensional : Bool
  is_already_in_black_list : Bool

instance : Inhabited Group := ⟨⟨0, 'c', [], [], false, true⟩⟩

/-- The row/column duplicate test of `Group::is_valid_option` (kk_group.rs
268-280): some pair of indices `pi < di` carries the same digit while the
corresponding positions share a row or a column. -/
def has_line_conflict (positions candidate : List Nat) : Bool :=
  (List.range (candidate.length - 1)).any fun pi =>
    (List.range' (pi + 1) (candidate.length - 1 - pi) 1).any fun di =>
      candidate.getD pi 0 == candidate.getD di 0 &&
      (positions.getD pi 0 / 10 == positions.getD di 0 / 10 ||
       positions.getD pi 0 % 10 == positions.getD di 0 % 10)

/-- The arithmetic check of `Group::is_valid_option` (kk_group.rs 283-297);
`dimension` there is the candidate's length. -/
def arith_ok (operation : Char) (result : Nat) (candidate : List Nat) : Bool :=
  match operation with
  | '+' => result == candidate.foldl (· + ·) 0
  | '*' => result == candidate.foldl (· * ·) 1
  | '-' => candidate.length == 2 &&
      result == ((candidate.getD 1 0 : Int) - (candidate.getD 0 0 : Int)).natAbs
  | ':' => candidate.length == 2 &&
      (candidate.getD 1 0 == result * candidate.getD 0 0 ||
       candidate.getD 0 0 == result * candidate.getD 1 0)
  | 'c' => candidate.length == 1 && candidate.getD 0 0 == result
  | _ => false

/-- `Group::is_valid_option` (kk_group.rs 264-298), factored through the
three fields it reads. -/
def is_valid_option_raw (positions : List Nat) (operation : Char) (result : Nat)
    (candidate : List Nat) : Bool :=
  !has_line_conflict positions candidate && arith_ok operation result candidate

/-- `Group::is_valid_option` as the method of kk_group.rs 264. -/
def Group.is_valid_option (g : Group) (candidate : List Nat) : Bool :=
  is_valid_option_raw g.positions g.operation g.result candidate

/-- `Group::copy_with_new_options` (kk_group.rs 176-189). -/
def Group.copy_with_new_options (g : Group) (new_options : List (List Nat))
    (new_is_black_listed : Bool) : Group :=
  { g with options := new_options, is_already_in_black_list := new_is_black_listed }

/-- The write loop of `Group::apply_option_to_field` (kk_group.rs 196-201):
walk the zip of positions and digits and set each board cell. -/
def write_digits (positions digits field : List Nat) : List Nat :=
  (positions.zip digits).foldl (fun f pd => f.set pd.1 pd.2) field

/-- `Group::apply_option_to_field` (kk_group.rs 195-202).  The Rust read
`options[option_index]` panics out of bounds; the embedding totalises it
with `List.getD` (callers pass an index below the option count). -/
def Group.apply_option_to_field (g : Group) (field : List Nat) (option_index : Nat) : List Nat :=
  write_digits g.positions (g.options.getD option_index []) field

/-- The digits already placed on the board in the row and in the column of
`position` (kk_group.rs 232-239): scan the eighteen cells, keep the values
above zero. -/
def placed_line_digits (field : List Nat) (position : Nat) : Finset Nat :=
  (((row_cells position ++ col_cells position).map (fun i => field.getD i 0)).filter
    (fun digit => decide (0 < digit))).toFinset

/-- The per-index blacklist of `Group::get_updated_group` (kk_group.rs
228-239): the stored blacklist of the position joined with the digits
already on its row and column. -/
def position_option_block (g : Group) (field : List Nat) (bl : BlackList)
    (index : Nat) : Finset Nat :=
  bl.get_position_black_list (g.positions.getD index 0) ∪
    placed_line_digits field (g.positions.getD index 0)

/-- The filtering loop of `Group::get_updated_group` (kk_group.rs 224-246):
for each position index in turn, drop every option whose digit at that
index is blocked there. -/
def filter_options (g : Group) (field : List Nat) (bl : BlackList) : List (List Nat) :=
  (List.range g.positions.length).foldl
    (fun new_options index =>
      new_options.filter (fun option =>
        decide (option.getD index 0 ∉ position_option_block g field bl index)))
    g.options

/-- `Group::get_updated_group` (kk_group.rs 214-259): filter the options
against the board and blacklist, update the blacklist when the group is not
yet blacklisted and keeps more than one option, and return the option
count, the position count, the updated group and the updated blacklist
(threaded explicitly for the Rust `&mut BlackList`). -/
def Group.get_updated_group (g : Group) (field : List Nat) (bl : BlackList) :
    Nat × Nat × Group × BlackList :=
  let new_options := filter_options g field bl
  if !g.is_already_in_black_list && decide (1 < new_options.length) then
    let r := bl.check_options_and_update_black_list g.positions new_options
    (new_options.length, g.positions.length, g.copy_with_new_options new_options r.1, r.2)
  else
    (new_options.length, g.positions.length,
     g.copy_with_new_options new_options g.is_already_in_black_list, bl)

/-- All tuples of `positions` many digits from `1..=dimension`, in the order
of itertools' `multi_cartesian_product` (kk_group.rs 158-160): first
coordinate outermost. -/
def digit_product (dimension : Nat) : Nat → List (List Nat)
  | 0 => [[]]
  | n + 1 =>
      ((List.range' 1 dimension 1).map fun d =>
        (digit_product dimension n).map fun t => d :: t).flatten

/-- The character rewriting of `Group::new_kenken` (kk_group.rs 109-116):
operation characters become `.id.` separators, other characters stay.
The string concatenation is modelled on character lists so that it
computes by structural recursion. -/
def encode_char (c : Char) : List Char :=
  if c = 'c' then ['.', '0', '.']
  else if c = '+' then ['.', '1', '.']
  else if c = '-' then ['.', '2', '.']
  else if c = '*' then ['.', '3', '.']
  else if c = ':' then ['.', '4', '.']
  else [c]

/-- Rust's `str::split(".")` on a character list: the pieces between the
dots, empty pieces preserved, with one more piece than separators. -/
def split_dot : List Char → List (List Char)
  | [] => [[]]
  | c :: rest =>
    if c = '.' then [] :: split_dot rest
    else
      match split_dot rest with
      | [] => [[c]]
      | piece :: pieces => (c :: piece) :: pieces

/-- The sentinel a failed `parse::<usize>()` is mapped to (kk_group.rs
121-124): `usize::MAX` on a 64-bit target. -/
def usize_max : Nat := 2 ^ 64 - 1

/-- The number a piece of the split group string parses to (kk_group.rs
121-124): its decimal value when the piece is a nonempty run of digits,
and `usize_max` otherwise.  (A piece never carries a leading `+` or `-`,
those characters were rewritten to separators; a decimal value at or
above `usize_max` fails the caller's range check exactly as Rust's
overflowing parse does.) -/
def parse_piece (piece : List Char) : Nat :=
  if piece ≠ [] ∧ piece.all (fun c => c.isDigit) then
    piece.foldl (fun n c => n * 10 + (c.toNat - 48)) 0
  else
    usize_max

/-- `Group::new_kenken` (kk_group.rs 101-173): parse the description line
into result, operation id and positions, reject it when it has fewer than
three pieces or a piece failed to parse, then keep every tuple of the digit
product that `is_valid_option` accepts, and fail when none survives.  An
operation id of five or more would make the Rust array read
`['c','+','-','*',':'][id]` panic; the embedding returns an error there (no
string produced by `encode_char` reaches that branch with a valid parse). -/
def Group.new_kenken (dimension : Nat) (group_as_string : String) : Except String Group :=
  let nums := (split_dot (group_as_string.data.map encode_char).flatten).map parse_piece
  if 3 ≤ nums.length ∧ nums.foldl (fun max p => if p > max then p else max) 0 < usize_max then
    let result := nums.getD 0 0
    let op_id := nums.getD 1 0
    let positions := nums.drop 2
    if op_id < 5 then
      let base : Group :=
        { result := result
          operation := ['c', '+', '-', '*', ':'].getD op_id ' '
          positions := positions
          options := []
          is_one_dimensional :=
            (positions.foldl (fun s p => s && (positions.getD 0 0 / 10 == p / 10)) true) ||
            (positions.foldl (fun s p => s && (positions.getD 0 0 % 10 == p % 10)) true)
          is_already_in_black_list := false }
      let group : Group :=
        { base with is_already_in_black_list := !base.is_one_dimensional,
                    options := (digit_product dimension positions.length).filter
                      (fun option => base.is_valid_option option) }
      if 0 < group.options.length then
        .ok group
      else
        .error ("Can\x27t parse line or no valid options for group found: " ++ group_as_string)
    else
      .error ("panic: operation id out of range: " ++ group_as_string)
  else
    .error ("Can\x27t parse line or no valid options for group found: " ++ group_as_string)

/-- `GameType` of kk_load.rs. -/
inductive GameType
  | KenKen
  | Sudoku
deriving DecidableEq

/-- The struct `Puzzle` of kk_puzzle.rs 20-28. -/
structure Puzzle where
  game_type : GameType
  dimension : Nat
  normal_group_direction : Bool
  solution : List Nat
  block_list : BlackList
  groups : List Group

/-- `Puzzle::copy_without_groups` (kk_puzzle.rs 32-41). -/
def Puzzle.copy_without_groups (old_field : Puzzle) : Puzzle :=
  { old_field with groups := [] }

/-- The `while` loop of `Puzzle::get_next_solution_step` (kk_puzzle.rs
151-181), with the board, blacklist, group list and the loop variables
`index`, `ind_min`, `min_opt`, `min_opt_pos` threaded explicitly.  `none`
is the early `return (None, None)` on a group left with zero options.  On
a group left with exactly one option the restart (kk_puzzle.rs 161-166)
resets only `min_opt`, `min_opt_pos` and `index`; `ind_min` keeps its
possibly stale value.  Otherwise the loop ends with the final board,
blacklist, group list and `ind_min`. -/
def solution_loop (sol : List Nat) (bl : BlackList) (groups : List Group)
    (index ind_min min_opt min_opt_pos : Nat) :
    Option (List Nat × BlackList × List Group × Nat) :=
  if h : index < groups.length then
    let r := (groups.getD index default).get_updated_group sol bl
    if r.1 = 0 then
      none
    else if r.1 = 1 then
      solution_loop (r.2.2.1.apply_option_to_field sol 0) r.2.2.2
        (groups.eraseIdx index) 0 ind_min 1000 1
    else
      if r.1 * min_opt_pos < min_opt * r.2.1 then
        solution_loop sol r.2.2.2 ((groups.eraseIdx index).insertIdx index r.2.2.1)
          (index + 1) index r.1 r.2.1
      else
        solution_loop sol r.2.2.2 ((groups.eraseIdx index).insertIdx index r.2.2.1)
          (index + 1) ind_min min_opt min_opt_pos
  else
    some (sol, bl, groups, ind_min)
termination_by (groups.length, groups.length - index)
decreasing_by
  · have h1 : (groups.eraseIdx index).length = groups.length - 1 := by
      simp [List.length_eraseIdx, h]
    simp only [h1]
    first
    | (apply Prod.Lex.left; omega)
    | (apply Prod.Lex.right; omega)
  · have h1 : ∀ x : Group, (List.insertIdx index x (groups.eraseIdx index)).length = groups.length := by
      intro x
      rw [List.length_insertIdx]
      · simp [List.length_eraseIdx, h]; omega
      · simp [List.length_eraseIdx, h]; omega
    simp only [h1]
    first
    | (apply Prod.Lex.left; omega)
    | (apply Prod.Lex.right; omega)
  · have h1 : ∀ x : Group, (List.insertIdx index x (groups.eraseIdx index)).length = groups.length := by
      intro x
      rw [List.length_insertIdx]
      · simp [List.length_eraseIdx, h]; omega
      · simp [List.length_eraseIdx, h]; omega
    simp only [h1]
    first
    | (apply Prod.Lex.left; omega)
    | (apply Prod.Lex.right; omega)

/-- `Puzzle::get_next_solution_step` (kk_puzzle.rs 141-190): run the loop
from index 0 with `ind_min = 0`, `min_opt = 1000`, `min_opt_pos = 1`; on
contradiction return `(none, none)`; otherwise, when groups remain, remove
the tracked one and return it as the branch group, else return the new
puzzle with no branch group.  Because a restart keeps the stale `ind_min`,
the Rust `new_groups.remove(ind_min)` (kk_puzzle.rs 184) can panic with an
out-of-bounds index; the embedding returns `.error` on that path. -/
def Puzzle.get_next_solution_step (p : Puzzle) :
    Except String (Option Puzzle × Option Group) :=
  match solution_loop p.solution p.block_list p.groups 0 0 1000 1 with
  | none => .ok (none, none)
  | some (sol, bl, new_groups, ind_min) =>
    let new_field := { p.copy_without_groups with solution := sol, block_list := bl }
    if 0 < new_groups.length then
      if ind_min < new_groups.length then
        .ok (some { new_field with groups := new_groups.eraseIdx ind_min },
             some (new_groups.getD ind_min default))
      else
        .error "panic: removal index out of bounds"
    else
      .ok (some new_field, none)

/-- `Puzzle::set_option_for_group` (kk_puzzle.rs 192-194). -/
def Puzzle.set_option_for_group (p : Puzzle) (group : Group) (option_index : Nat) : Puzzle :=
  { p with solution := group.apply_option_to_field p.solution option_index }

/-- The option loop of `Puzzle::solve` (kk_puzzle.rs 222-228): try the
indices in order, return the first `Some` solution, stop on a panic of the
recursion, and fall through to `None` when every option fails. -/
def first_success {β : Type} (f : Nat → Except String (Option β)) :
    List Nat → Except String (Option β)
  | [] => .ok none
  | i :: rest =>
    match f i with
    | .error e => .error e
    | .ok (some x) => .ok (some x)
    | .ok none => first_success f rest

/-- `Puzzle::solve` (kk_puzzle.rs 207-231) with an explicit recursion
budget: one propagation step, then, if a branch group came back, try each
of its options in order on a fresh copy of the propagated state and return
the first success.  `.error` is a propagated panic of the step.  Rust\x27s
recursion has no budget; every call consumes one unit here and
`Puzzle.solve` supplies more units than the recursion can use (each level
strictly shrinks the group list).  The arm pairing a `None` puzzle with a
`Some` branch group never leaves `get_next_solution_step`; Rust would
panic on its `unwrap` there. -/
def Puzzle.solve_steps : Nat → Puzzle → Except String (Option Puzzle)
  | 0, _ => .ok none
  | fuel + 1, p =>
    match p.get_next_solution_step with
    | .error e => .error e
    | .ok (updated_field, none) => .ok updated_field
    | .ok (none, some _) => .ok none
    | .ok (some updated_field, some next_group) =>
      first_success
        (fun option_index =>
          Puzzle.solve_steps fuel (updated_field.set_option_for_group next_group option_index))
        (List.range next_group.options.length)

/-- `Puzzle::solve` (kk_puzzle.rs 207-231); `.ok` is a normal return of
the Rust function, `.error` a panic escaping it. -/
def Puzzle.solve (p : Puzzle) : Except String (Option Puzzle) :=
  Puzzle.solve_steps (p.groups.length + 1) p

/-- The group construction loop of
`Puzzle::initialize_kenken_from_definition` (kk_puzzle.rs 113-116): build a
group per line, propagating the first error. -/
def build_groups (dimension : Nat) : List String → Except String (List Group)
  | [] => .ok []
  | s :: rest =>
    match Group.new_kenken dimension s with
    | .error e => .error e
    | .ok g =>
      match build_groups dimension rest with
      | .error e => .error e
      | .ok gs => .ok (g :: gs)

/-- `Puzzle::initialize_kenken_from_definition` (kk_puzzle.rs 109-129):
build the groups (any construction error aborts initialization before the
first solution step), then run one solution step and, when it returns a new
state, adopt its board, blacklist and groups and append the branch group.
When the step returns a state with no branch group the Rust `c.unwrap()`
panics; the embedding returns an error there. -/
def Puzzle.initialize_kenken_from_definition (p : Puzzle) (puzzle_string_vector : List String) :
    Except String Puzzle :=
  match build_groups p.dimension puzzle_string_vector with
  | .error e => .error e
  | .ok gs =>
    let p1 : Puzzle := { p with groups := p.groups ++ gs }
    match p1.get_next_solution_step with
    | .error e => .error e
    | .ok (some of, some c) =>
      .ok { p1 with solution := of.solution, block_list := of.block_list,
                    groups := of.groups ++ [c] }
    | .ok (some _, none) => .error "panic: no branch group after initial step"
    | .ok (none, _) => .ok p1

/-! ### Generic list facts used throughout -/

theorem foldl_filter_mem {α β : Type} (l : List β) (f : β → α → Bool) :
    ∀ (xs : List α) (x : α),
      x ∈ l.foldl (fun acc b => acc.filter (f b)) xs ↔ x ∈ xs ∧ ∀ b ∈ l, f b x = true := by
  induction l with
  | nil => intro xs x; simp
  | cons b rest ih =>
    intro xs x
    simp only [List.foldl_cons]
    rw [ih]
    simp only [List.mem_filter, List.mem_cons]
    constructor
    · rintro ⟨⟨hx, hb⟩, hrest⟩
      exact ⟨hx, fun c hc => hc.elim (fun e => e ▸ hb) (hrest c)⟩
    · rintro ⟨hx, hall⟩
      exact ⟨⟨hx, hall b (Or.inl rfl)⟩, fun c hc => hall c (Or.inr hc)⟩

theorem foldl_filter_sublist {α β : Type} (l : List β) (f : β → α → Bool) :
    ∀ xs : List α, (l.foldl (fun acc b => acc.filter (f b)) xs).Sublist xs := by
  induction l with
  | nil => intro xs; simp
  | cons b rest ih => intro xs; exact (ih _).trans (List.filter_sublist xs)

theorem foldl_set_length (l : List (Nat × Nat)) :
    ∀ field : List Nat, (l.foldl (fun f pd => f.set pd.1 pd.2) field).length = field.length := by
  induction l with
  | nil => intro field; rfl
  | cons pd rest ih => intro field; simp only [List.foldl_cons]; rw [ih, List.length_set]

theorem foldl_set_getElem?_frame (l : List (Nat × Nat)) :
    ∀ (field : List Nat) (q : Nat), (∀ pd ∈ l, pd.1 ≠ q) →
      (l.foldl (fun f pd => f.set pd.1 pd.2) field)[q]? = field[q]? := by
  induction l with
  | nil => intro field q _; rfl
  | cons pd rest ih =>
    intro field q hq
    simp only [List.foldl_cons]
    rw [ih _ _ (fun c hc => hq c (List.mem_cons_of_mem pd hc))]
    exact List.getElem?_set_ne (hq pd (List.mem_cons_self pd rest))

theorem write_digits_length (positions digits field : List Nat) :
    (write_digits positions digits field).length = field.length :=
  foldl_set_length _ _

theorem write_digits_getElem?_frame (positions digits field : List Nat) (q : Nat)
    (hq : q ∉ positions) :
    (write_digits positions digits field)[q]? = field[q]? := by
  refine foldl_set_getElem?_frame _ _ _ (fun pd hpd => ?_)
  intro he
  exact hq (he ▸ (List.of_mem_zip hpd).1)

theorem write_digits_getD_frame (positions digits field : List Nat) (q : Nat)
    (hq : q ∉ positions) :
    (write_digits positions digits field).getD q 0 = field.getD q 0 := by
  rw [List.getD_eq_getElem?_getD, List.getD_eq_getElem?_getD,
    write_digits_getElem?_frame positions digits field q hq]

theorem write_digits_getD_value (positions : List Nat) :
    ∀ (digits field : List Nat), positions.Nodup → (∀ q ∈ positions, q < field.length) →
      ∀ i, i < positions.length → i < digits.length →
        (write_digits positions digits field).getD (positions.getD i 0) 0 = digits.getD i 0 := by
  induction positions with
  | nil => intro digits field _ _ i hi _; exact absurd hi (Nat.not_lt_zero i)
  | cons p ps ih =>
    intro digits field hnd hlt i hi hdi
    match digits with
    | [] => exact absurd hdi (Nat.not_lt_zero i)
    | d :: ds =>
      have hw : write_digits (p :: ps) (d :: ds) field =
          write_digits ps ds (field.set p d) := by
        simp [write_digits, List.zip_cons_cons]
      rw [hw]
      match i with
      | 0 =>
        simp only [List.getD_cons_zero]
        rw [List.getD_eq_getElem?_getD,
          write_digits_getElem?_frame ps ds (field.set p d) p (by simp at hnd; exact hnd.1)]
        rw [List.getElem?_set_eq (by simpa using hlt p (List.mem_cons_self p ps))]
        rfl
      | i + 1 =>
        simp only [List.getD_cons_succ]
        refine ih ds (field.set p d) (by simp at hnd; exact hnd.2) ?_ i
          (Nat.lt_of_succ_lt_succ hi) (Nat.lt_of_succ_lt_succ hdi)
        intro q hq
        rw [List.length_set]
        exact hlt q (List.mem_cons_of_mem p hq)

theorem eraseIdx_insertIdx_eq_set {α : Type} (l : List α) :
    ∀ (i : Nat) (a : α), i < l.length → List.insertIdx i a (l.eraseIdx i) = l.set i a := by
  induction l with
  | nil => intro i a hi; exact absurd hi (Nat.not_lt_zero i)
  | cons x xs ih =>
    intro i a hi
    match i with
    | 0 => rfl
    | i + 1 =>
      simp only [List.eraseIdx_cons_succ, List.insertIdx_succ_cons, List.set_cons_succ]
      rw [ih i a (Nat.lt_of_succ_lt_succ hi)]

theorem mem_of_mem_eraseIdx {α : Type} {l : List α} {i : Nat} {a : α}
    (h : a ∈ l.eraseIdx i) : a ∈ l :=
  (List.eraseIdx_sublist l i).mem h

theorem mem_eraseIdx_of_ne {α : Type} [Inhabited α] {l : List α} :
    ∀ {i : Nat}, l.Nodup → i < l.length → ∀ {a : α}, a ∈ l → a ≠ l.getD i default →
      a ∈ l.eraseIdx i := by
  induction l with
  | nil => intro i _ hi; exact absurd hi (Nat.not_lt_zero i)
  | cons x xs ih =>
    intro i hnd hi a ha hne
    match i with
    | 0 =>
      rw [List.eraseIdx_cons_zero]
      rcases List.mem_cons.mp ha with h | h
      · exact absurd h hne
      · exact h
    | i + 1 =>
      rw [List.eraseIdx_cons_succ]
      rcases List.mem_cons.mp ha with h | h
      · exact h ▸ List.mem_cons_self a (xs.eraseIdx i)
      · exact List.mem_cons_of_mem x
          (ih (List.Nodup.of_cons hnd) (Nat.lt_of_succ_lt_succ hi) h hne)

theorem getD_mem_of_lt {α : Type} [Inhabited α] {l : List α} {i : Nat} (h : i < l.length) :
    l.getD i default ∈ l := by
  rw [List.getD_eq_getElem l default h]
  exact List.getElem_mem h

theorem findSome?_exists_mem {α β : Type} {f : α → Option β} {l : List α} {b : β}
    (h : l.findSome? f = some b) : ∃ a ∈ l, f a = some b := by
  rcases List.findSome?_eq_some_iff.mp h with ⟨l₁, a, l₂, hl, hfa, _⟩
  exact ⟨a, by rw [hl]; simp, hfa⟩


/-! ### Forall-two utilities -/

theorem forall₂_getD {α β : Type} {R : α → β → Prop} {l₁ : List α} {l₂ : List β}
    (h : List.Forall₂ R l₁ l₂) (d₁ : α) (d₂ : β) :
    ∀ i, i < l₁.length → R (l₁.getD i d₁) (l₂.getD i d₂) := by
  induction h with
  | nil => intro i hi; exact absurd hi (Nat.not_lt_zero i)
  | cons hab _ ih =>
    intro i hi
    match i with
    | 0 => exact hab
    | i + 1 => exact ih i (Nat.lt_of_succ_lt_succ hi)

theorem forall₂_eraseIdx {α β : Type} {R : α → β → Prop} {l₁ : List α} {l₂ : List β}
    (h : List.Forall₂ R l₁ l₂) :
    ∀ i, List.Forall₂ R (l₁.eraseIdx i) (l₂.eraseIdx i) := by
  induction h with
  | nil => intro i; simp [List.eraseIdx]
  | cons hab hrest ih =>
    intro i
    match i with
    | 0 => simpa [List.eraseIdx_cons_zero] using hrest
    | i + 1 =>
      simp only [List.eraseIdx_cons_succ]
      exact List.Forall₂.cons hab (ih i)

theorem forall₂_set_right {α β : Type} {R : α → β → Prop} {l₁ : List α} {l₂ : List β}
    (h : List.Forall₂ R l₁ l₂) (d₁ : α) :
    ∀ i b, i < l₁.length → R (l₁.getD i d₁) b → List.Forall₂ R l₁ (l₂.set i b) := by
  induction h with
  | nil => intro i b hi; exact absurd hi (Nat.not_lt_zero i)
  | cons hab hrest ih =>
    intro i b hi hr
    match i with
    | 0 => exact List.Forall₂.cons hr hrest
    | i + 1 =>
      exact List.Forall₂.cons hab (ih i b (Nat.lt_of_succ_lt_succ hi) hr)

theorem forall₂_mem_right {α β : Type} {R : α → β → Prop} {l₁ : List α} {l₂ : List β}
    (h : List.Forall₂ R l₁ l₂) : ∀ b ∈ l₂, ∃ a ∈ l₁, R a b := by
  induction h with
  | nil => intro b hb; exact absurd hb (List.not_mem_nil b)
  | cons hab _ ih =>
    intro b hb
    rcases List.mem_cons.mp hb with h | h
    · exact ⟨_, List.mem_cons_self _ _, h ▸ hab⟩
    · rcases ih b h with ⟨a, ha, har⟩
      exact ⟨a, List.mem_cons_of_mem _ ha, har⟩

theorem pairwise_forall₂_transport {α β : Type} {R : α → β → Prop}
    {S₁ : α → α → Prop} {S₂ : β → β → Prop} {l₁ : List α} {l₂ : List β}
    (h : List.Forall₂ R l₁ l₂)
    (f : ∀ a a' b b', R a b → R a' b' → S₁ a a' → S₂ b b') :
    List.Pairwise S₁ l₁ → List.Pairwise S₂ l₂ := by
  induction h with
  | nil => intro _; exact List.Pairwise.nil
  | cons hab hrest ih =>
    intro hp
    rcases List.pairwise_cons.mp hp with ⟨hhead, htail⟩
    refine List.Pairwise.cons ?_ (ih htail)
    intro b' hb'
    rcases forall₂_mem_right hrest b' hb' with ⟨a', ha', har⟩
    exact f _ _ _ _ hab har (hhead a' ha')

/-! ### The soundness invariants -/

/-- Two board positions share a row or a column (`row*10 + column`
encoding). -/
def same_line (p q : Nat) : Prop := p / 10 = q / 10 ∨ p % 10 = q % 10

/-- No two distinct on-board positions sharing a line carry the same
nonzero digit. -/
def BoardOK (sol : List Nat) : Prop :=
  ∀ p, p < 90 → ∀ q, q < 90 → p ≠ q → same_line p q →
    sol.getD p 0 ≠ 0 → sol.getD q 0 ≠ 0 → sol.getD p 0 ≠ sol.getD q 0

/-- Every nonzero digit sits in a cell whose column is below nine (the
tenth slot of each encoded row stays empty). -/
def ColsOK (sol : List Nat) : Prop :=
  ∀ p, p < 90 → sol.getD p 0 ≠ 0 → p % 10 < 9

/-- A well-formed group: positions nonempty, distinct and on the board,
every option as long as the position list and accepted by
`is_valid_option`. -/
def GroupWF (g : Group) : Prop :=
  g.positions ≠ [] ∧ g.positions.Nodup ∧
  (∀ q ∈ g.positions, q < 90 ∧ q % 10 < 9) ∧
  (∀ o ∈ g.options, o.length = g.positions.length ∧
    is_valid_option_raw g.positions g.operation g.result o = true)

/-- The positions of two groups do not meet. -/
def PosDisj (g h : Group) : Prop := ∀ q ∈ g.positions, q ∉ h.positions

/-- `g` is `g0` after some filtering: same positions, operation and
result, options a subset of the original options. -/
def Derives (g0 g : Group) : Prop :=
  g.positions = g0.positions ∧ g.operation = g0.operation ∧ g.result = g0.result ∧
  ∀ o ∈ g.options, o ∈ g0.options

/-- The board assigns one of the group's options to its positions. -/
def Placed (g0 : Group) (sol : List Nat) : Prop :=
  ∃ o ∈ g0.options, ∀ i, i < g0.positions.length →
    sol.getD (g0.positions.getD i 0) 0 = o.getD i 0

/-- Option `o` avoids every nonzero digit the board holds on the row and
column of each of its positions. -/
def CleanOpt (positions o sol : List Nat) : Prop :=
  ∀ i, i < positions.length →
    ∀ q ∈ row_cells (positions.getD i 0) ++ col_cells (positions.getD i 0),
      sol.getD q 0 ≠ 0 → o.getD i 0 ≠ sol.getD q 0

/-- All options of the group are clean for the board. -/
def Clean (g : Group) (sol : List Nat) : Prop :=
  ∀ o ∈ g.options, CleanOpt g.positions o sol

/-- The well-formedness of a puzzle state handed to the solver: a
90-cell board that is consistent so far, well-formed groups, and pairwise
disjoint group positions. -/
def PuzzleWF (p : Puzzle) : Prop :=
  p.solution.length = 90 ∧ BoardOK p.solution ∧ ColsOK p.solution ∧
  (∀ g ∈ p.groups, GroupWF g) ∧ p.groups.Pairwise PosDisj

theorem derives_refl (g : Group) : Derives g g :=
  ⟨rfl, rfl, rfl, fun _ h => h⟩

theorem derives_trans {g0 g1 g2 : Group} (h01 : Derives g0 g1) (h12 : Derives g1 g2) :
    Derives g0 g2 :=
  ⟨h12.1.trans h01.1, h12.2.1.trans h01.2.1, h12.2.2.1.trans h01.2.2.1,
   fun o ho => h01.2.2.2 o (h12.2.2.2 o ho)⟩

theorem posdisj_symm {g h : Group} (hd : PosDisj g h) : PosDisj h g :=
  fun q hq hg => hd q hg hq

theorem groupwf_of_derives {g0 g : Group} (h0 : GroupWF g0) (hd : Derives g0 g) : GroupWF g := by
  obtain ⟨hpos, hop, hres, hopt⟩ := hd
  refine ⟨hpos ▸ h0.1, hpos ▸ h0.2.1, hpos ▸ h0.2.2.1, ?_⟩
  intro o ho
  have := h0.2.2.2 o (hopt o ho)
  rw [hpos, hop, hres]
  exact this

theorem nodup_of_pairwise_posdisj {l : List Group} (hp : List.Pairwise PosDisj l)
    (hne : ∀ g ∈ l, g.positions ≠ []) : l.Nodup := by
  refine List.Pairwise.imp_of_mem ?_ hp
  intro a b ha _ hd he
  rcases List.exists_mem_of_ne_nil a.positions (hne a ha) with ⟨q, hq⟩
  exact hd q hq (he ▸ hq)

/-! ### Scan and filter characterizations -/

theorem mem_row_cells {q p : Nat} : q ∈ row_cells p ↔ q / 10 = p / 10 ∧ q % 10 < 9 := by
  rw [row_cells, List.mem_range']
  constructor
  · rintro ⟨i, hi, rfl⟩
    omega
  · rintro ⟨hq, hc⟩
    exact ⟨q % 10, by omega, by omega⟩

theorem mem_col_cells {q p : Nat} : q ∈ col_cells p ↔ q % 10 = p % 10 ∧ q < 90 := by
  rw [col_cells, List.mem_range']
  constructor
  · rintro ⟨i, hi, rfl⟩
    omega
  · rintro ⟨hq, hc⟩
    exact ⟨q / 10, by omega, by omega⟩

theorem mem_placed_line_digits {field : List Nat} {p d : Nat} :
    d ∈ placed_line_digits field p ↔
      0 < d ∧ ∃ q ∈ row_cells p ++ col_cells p, field.getD q 0 = d := by
  simp only [placed_line_digits, List.mem_toFinset, List.mem_filter, List.mem_map,
    decide_eq_true_eq]
  constructor
  · rintro ⟨⟨q, hq, rfl⟩, hd⟩
    exact ⟨hd, q, hq, rfl⟩
  · rintro ⟨hd, q, hq, rfl⟩
    exact ⟨⟨q, hq, rfl⟩, hd⟩

theorem filter_options_mem {g : Group} {field : List Nat} {bl : BlackList} {o : List Nat} :
    o ∈ filter_options g field bl ↔
      o ∈ g.options ∧ ∀ i, i < g.positions.length →
        o.getD i 0 ∉ position_option_block g field bl i := by
  rw [filter_options, foldl_filter_mem]
  constructor
  · rintro ⟨ho, hall⟩
    refine ⟨ho, fun i hi => ?_⟩
    have := hall i (List.mem_range.mpr hi)
    simpa [decide_eq_true_eq] using this
  · rintro ⟨ho, hall⟩
    refine ⟨ho, fun i hi => ?_⟩
    simpa [decide_eq_true_eq] using hall i (List.mem_range.mp hi)

theorem filter_options_sublist (g : Group) (field : List Nat) (bl : BlackList) :
    (filter_options g field bl).Sublist g.options :=
  foldl_filter_sublist _ _ _

theorem gug_opt_cnt (g : Group) (field : List Nat) (bl : BlackList) :
    (g.get_updated_group field bl).1 = (filter_options g field bl).length := by
  rw [Group.get_updated_group]
  split <;> rfl

theorem gug_pos_cnt (g : Group) (field : List Nat) (bl : BlackList) :
    (g.get_updated_group field bl).2.1 = g.positions.length := by
  rw [Group.get_updated_group]
  split <;> rfl

theorem gug_group_options (g : Group) (field : List Nat) (bl : BlackList) :
    (g.get_updated_group field bl).2.2.1.options = filter_options g field bl := by
  rw [Group.get_updated_group]
  split <;> rfl

theorem gug_group_positions (g : Group) (field : List Nat) (bl : BlackList) :
    (g.get_updated_group field bl).2.2.1.positions = g.positions := by
  rw [Group.get_updated_group]
  split <;> rfl

theorem gug_group_operation (g : Group) (field : List Nat) (bl : BlackList) :
    (g.get_updated_group field bl).2.2.1.operation = g.operation := by
  rw [Group.get_updated_group]
  split <;> rfl

theorem gug_group_result (g : Group) (field : List Nat) (bl : BlackList) :
    (g.get_updated_group field bl).2.2.1.result = g.result := by
  rw [Group.get_updated_group]
  split <;> rfl

theorem gug_derives (g : Group) (field : List Nat) (bl : BlackList) :
    Derives g (g.get_updated_group field bl).2.2.1 := by
  refine ⟨gug_group_positions g field bl, gug_group_operation g field bl,
    gug_group_result g field bl, ?_⟩
  intro o ho
  rw [gug_group_options] at ho
  exact (filter_options_mem.mp ho).1

theorem gug_clean (g : Group) (field : List Nat) (bl : BlackList) :
    Clean (g.get_updated_group field bl).2.2.1 field := by
  intro o ho i hi q hq hnz
  rw [gug_group_options] at ho
  rw [gug_group_positions] at hi hq
  have hfo := (filter_options_mem.mp ho).2 i hi
  intro he
  apply hfo
  rw [position_option_block]
  refine Finset.mem_union_right _ ?_
  rw [mem_placed_line_digits]
  exact ⟨by omega, q, hq, he.symm⟩

/-! ### From the boolean option validation to propositions -/

theorem same_line_symm {p q : Nat} (h : same_line p q) : same_line q p :=
  h.imp Eq.symm Eq.symm

theorem has_line_conflict_of_pair {ps o : List Nat} {i j : Nat} (hij : i < j)
    (hj : j < o.length) (heq : o.getD i 0 = o.getD j 0)
    (hline : same_line (ps.getD i 0) (ps.getD j 0)) :
    has_line_conflict ps o = true := by
  rw [has_line_conflict, List.any_eq_true]
  refine ⟨i, List.mem_range.mpr (by omega), ?_⟩
  rw [List.any_eq_true]
  refine ⟨j, List.mem_range'.mpr ⟨j - (i + 1), by omega, by omega⟩, ?_⟩
  rw [Bool.and_eq_true, beq_iff_eq]
  refine ⟨heq, ?_⟩
  rcases hline with hl | hl
  · simp [← List.getD_eq_getElem?_getD, hl]
  · simp [← List.getD_eq_getElem?_getD, hl]

theorem valid_line_distinct {ps : List Nat} {op : Char} {res : Nat} {o : List Nat}
    (h : is_valid_option_raw ps op res o = true) :
    ∀ i j, i < o.length → j < o.length → i ≠ j →
      same_line (ps.getD i 0) (ps.getD j 0) → o.getD i 0 ≠ o.getD j 0 := by
  have hconf : has_line_conflict ps o = false := by
    rw [is_valid_option_raw, Bool.and_eq_true] at h
    simpa using h.1
  intro i j hi hj hne hline heq
  rcases Nat.lt_or_ge i j with hij | hij
  · rw [has_line_conflict_of_pair hij hj heq hline] at hconf
    exact absurd hconf (by simp)
  · have hji : j < i := by omega
    rw [has_line_conflict_of_pair hji hi heq.symm (same_line_symm hline)] at hconf
    exact absurd hconf (by simp)

theorem valid_arith {ps : List Nat} {op : Char} {res : Nat} {o : List Nat}
    (h : is_valid_option_raw ps op res o = true) : arith_ok op res o = true := by
  rw [is_valid_option_raw, Bool.and_eq_true] at h
  exact h.2

/-! ### Step equations of the propagation loop -/

theorem solution_loop_end (sol : List Nat) (bl : BlackList) (groups : List Group)
    (index im mo mop : Nat) (hidx : ¬ index < groups.length) :
    solution_loop sol bl groups index im mo mop = some (sol, bl, groups, im) := by
  rw [solution_loop]
  simp [hidx]

theorem solution_loop_step_zero (sol : List Nat) (bl : BlackList) (groups : List Group)
    (index im mo mop : Nat) (hidx : index < groups.length)
    (h0 : ((groups.getD index default).get_updated_group sol bl).1 = 0) :
    solution_loop sol bl groups index im mo mop = none := by
  rw [List.getD_eq_getElem groups default hidx] at h0
  rw [solution_loop]
  simp [hidx, h0]

theorem solution_loop_step_one (sol : List Nat) (bl : BlackList) (groups : List Group)
    (index im mo mop : Nat) (hidx : index < groups.length)
    (h1 : ((groups.getD index default).get_updated_group sol bl).1 = 1) :
    solution_loop sol bl groups index im mo mop =
      solution_loop
        (((groups.getD index default).get_updated_group sol bl).2.2.1.apply_option_to_field sol 0)
        ((groups.getD index default).get_updated_group sol bl).2.2.2
        (groups.eraseIdx index) 0 im 1000 1 := by
  rw [List.getD_eq_getElem groups default hidx] at h1 ⊢
  rw [solution_loop]
  simp [hidx, h1]

theorem solution_loop_step_more_update (sol : List Nat) (bl : BlackList) (groups : List Group)
    (index im mo mop : Nat) (hidx : index < groups.length)
    (h2 : 2 ≤ ((groups.getD index default).get_updated_group sol bl).1)
    (hcmp : ((groups.getD index default).get_updated_group sol bl).1 * mop <
      mo * ((groups.getD index default).get_updated_group sol bl).2.1) :
    solution_loop sol bl groups index im mo mop =
      solution_loop sol ((groups.getD index default).get_updated_group sol bl).2.2.2
        ((groups.eraseIdx index).insertIdx index
          ((groups.getD index default).get_updated_group sol bl).2.2.1)
        (index + 1) index ((groups.getD index default).get_updated_group sol bl).1
        ((groups.getD index default).get_updated_group sol bl).2.1 := by
  have hne0 : ¬ ((groups.getD index default).get_updated_group sol bl).1 = 0 := by omega
  have hne1 : ¬ ((groups.getD index default).get_updated_group sol bl).1 = 1 := by omega
  rw [List.getD_eq_getElem groups default hidx] at hne0 hne1 hcmp ⊢
  rw [solution_loop]
  simp [hidx, hne0, hne1, hcmp]

theorem solution_loop_step_more_keep (sol : List Nat) (bl : BlackList) (groups : List Group)
    (index im mo mop : Nat) (hidx : index < groups.length)
    (h2 : 2 ≤ ((groups.getD index default).get_updated_group sol bl).1)
    (hcmp : ¬ ((groups.getD index default).get_updated_group sol bl).1 * mop <
      mo * ((groups.getD index default).get_updated_group sol bl).2.1) :
    solution_loop sol bl groups index im mo mop =
      solution_loop sol ((groups.getD index default).get_updated_group sol bl).2.2.2
        ((groups.eraseIdx index).insertIdx index
          ((groups.getD index default).get_updated_group sol bl).2.2.1)
        (index + 1) im mo mop := by
  have hne0 : ¬ ((groups.getD index default).get_updated_group sol bl).1 = 0 := by omega
  have hne1 : ¬ ((groups.getD index default).get_updated_group sol bl).1 = 1 := by omega
  rw [List.getD_eq_getElem groups default hidx] at hne0 hne1 hcmp ⊢
  rw [solution_loop]
  simp [hidx, hne0, hne1, hcmp]

theorem loop_measure_drop_erase (L index : Nat) (h : index < L) :
    (L - 1) * (L - 1 + 1) + (L - 1 - 0) < L * (L + 1) + (L - index) := by
  obtain ⟨K, rfl⟩ : ∃ K, L = K + 1 := ⟨L - 1, by omega⟩
  have he : (K + 1) * (K + 1 + 1) = K * (K + 1) + 2 * (K + 1) := by ring
  simp only [Nat.add_sub_cancel, Nat.sub_zero]
  rw [he]
  generalize K * (K + 1) = A
  omega

theorem loop_measure_drop_step (L index : Nat) (h : index < L) :
    L * (L + 1) + (L - (index + 1)) < L * (L + 1) + (L - index) := by
  generalize L * (L + 1) = A
  omega

/-! ### Placing one clean, valid option keeps the board consistent -/

theorem mem_iff_getD {α : Type} {l : List α} {a : α} (d : α) :
    a ∈ l ↔ ∃ i, i < l.length ∧ l.getD i d = a := by
  rw [List.mem_iff_getElem]
  constructor
  · rintro ⟨i, hi, rfl⟩
    exact ⟨i, hi, List.getD_eq_getElem l d hi⟩
  · rintro ⟨i, hi, ha⟩
    exact ⟨i, hi, (List.getD_eq_getElem l d hi).symm.trans ha⟩

theorem getD_set_eq {α : Type} {l : List α} {i : Nat} (a d : α) (h : i < l.length) :
    (l.set i a).getD i d = a := by
  rw [List.getD_eq_getElem?_getD, List.getElem?_set_eq h]
  rfl

theorem getD_set_ne {α : Type} {l : List α} {i k : Nat} (a d : α) (h : i ≠ k) :
    (l.set i a).getD k d = l.getD k d := by
  rw [List.getD_eq_getElem?_getD, List.getElem?_set_ne h, ← List.getD_eq_getElem?_getD]

theorem place_preserves (sol ps o : List Nat)
    (hlen : sol.length = 90) (hb : BoardOK sol) (hc : ColsOK sol)
    (hnd : ps.Nodup) (hbounds : ∀ q ∈ ps, q < 90 ∧ q % 10 < 9)
    (holen : o.length = ps.length)
    (hline : ∀ i j, i < o.length → j < o.length → i ≠ j →
      same_line (ps.getD i 0) (ps.getD j 0) → o.getD i 0 ≠ o.getD j 0)
    (hclean : CleanOpt ps o sol) :
    (write_digits ps o sol).length = 90 ∧ BoardOK (write_digits ps o sol) ∧
    ColsOK (write_digits ps o sol) ∧
    (∀ q, q ∉ ps → (write_digits ps o sol).getD q 0 = sol.getD q 0) ∧
    (∀ i, i < ps.length → (write_digits ps o sol).getD (ps.getD i 0) 0 = o.getD i 0) := by
  have hframe : ∀ q, q ∉ ps → (write_digits ps o sol).getD q 0 = sol.getD q 0 :=
    fun q hq => write_digits_getD_frame ps o sol q hq
  have hvalue : ∀ i, i < ps.length → (write_digits ps o sol).getD (ps.getD i 0) 0 = o.getD i 0 := by
    intro i hi
    exact write_digits_getD_value ps o sol hnd
      (fun q hq => hlen ▸ (hbounds q hq).1) i hi (by omega)
  refine ⟨(write_digits_length ps o sol).trans hlen, ?_, ?_, hframe, hvalue⟩
  · -- BoardOK
    intro p hp q hq hne hsl hnzp hnzq heq
    by_cases hpm : p ∈ ps <;> by_cases hqm : q ∈ ps
    · rcases (mem_iff_getD 0).mp hpm with ⟨i, hi, hpi⟩
      rcases (mem_iff_getD 0).mp hqm with ⟨j, hj, hqj⟩
      have hij : i ≠ j := fun e => hne (hpi ▸ hqj ▸ e ▸ rfl)
      have := hline i j (by omega) (by omega) hij (by rw [hpi, hqj]; exact hsl)
      rw [← hpi, ← hqj, hvalue i hi, hvalue j hj] at heq
      exact this heq
    · rcases (mem_iff_getD 0).mp hpm with ⟨i, hi, hpi⟩
      rw [hframe q hqm] at heq hnzq
      have hv : (write_digits ps o sol).getD p 0 = o.getD i 0 := by
        rw [← hpi]
        exact hvalue i hi
      rw [hv] at heq
      have hqmem : q ∈ row_cells (ps.getD i 0) ++ col_cells (ps.getD i 0) := by
        rw [hpi, List.mem_append]
        rcases hsl with hrow | hcol
        · exact Or.inl (mem_row_cells.mpr ⟨hrow.symm, hc q hq hnzq⟩)
        · exact Or.inr (mem_col_cells.mpr ⟨hcol.symm, hq⟩)
      exact hclean i hi q hqmem hnzq heq
    · rcases (mem_iff_getD 0).mp hqm with ⟨j, hj, hqj⟩
      rw [hframe p hpm] at heq hnzp
      have hv : (write_digits ps o sol).getD q 0 = o.getD j 0 := by
        rw [← hqj]
        exact hvalue j hj
      rw [hv] at heq
      have hpmem : p ∈ row_cells (ps.getD j 0) ++ col_cells (ps.getD j 0) := by
        rw [hqj, List.mem_append]
        rcases hsl with hrow | hcol
        · exact Or.inl (mem_row_cells.mpr ⟨hrow, hc p hp hnzp⟩)
        · exact Or.inr (mem_col_cells.mpr ⟨hcol, hp⟩)
      exact hclean j hj p hpmem hnzp heq.symm
    · rw [hframe p hpm] at heq hnzp
      rw [hframe q hqm] at heq hnzq
      exact hb p hp q hq hne hsl hnzp hnzq heq
  · -- ColsOK
    intro p hp hnz
    by_cases hpm : p ∈ ps
    · exact (hbounds p hpm).2
    · rw [hframe p hpm] at hnz
      exact hc p hp hnz

/-! ### The propagation loop is sound -/

/-- The running invariant of the propagation loop: a consistent board, the
current groups derived pointwise from a sublist `origs` of the puzzle's
original groups, every original group still represented or already written
to the board, and the board untouched outside the original groups'
positions. -/
def StateOK (input : List Group) (isol sol : List Nat) (origs groups : List Group) : Prop :=
  sol.length = 90 ∧ BoardOK sol ∧ ColsOK sol ∧
  List.Forall₂ Derives origs groups ∧ origs.Sublist input ∧
  (∀ g0 ∈ input, g0 ∈ origs ∨ Placed g0 sol) ∧
  (∀ q, (∀ g0 ∈ input, q ∉ g0.positions) → sol.getD q 0 = isol.getD q 0)

theorem solution_loop_sound (input : List Group) (isol : List Nat)
    (hwf : ∀ g ∈ input, GroupWF g) (hpd : input.Pairwise PosDisj) :
    ∀ N sol bl groups origs index im mo mop,
      groups.length * (groups.length + 1) + (groups.length - index) ≤ N →
      StateOK input isol sol origs groups →
      (∀ k, k < index → Clean (groups.getD k default) sol) →
      ∀ sol2 bl2 groups2 im2,
        solution_loop sol bl groups index im mo mop = some (sol2, bl2, groups2, im2) →
        ∃ origs2,
          StateOK input isol sol2 origs2 groups2 ∧
          (∀ g ∈ groups2, Clean g sol2) ∧
          groups2.length ≤ groups.length := by
  have hnd_input : input.Nodup := nodup_of_pairwise_posdisj hpd (fun g hg => (hwf g hg).1)
  have heqd : ∀ g0 ∈ input, ∀ g1 ∈ input, g0 = g1 ∨ PosDisj g0 g1 := by
    intro g0 h0 g1 h1
    by_cases he : g0 = g1
    · exact Or.inl he
    · exact Or.inr (List.Pairwise.forall (fun a b h => posdisj_symm h) hpd h0 h1 he)
  intro N
  induction N with
  | zero =>
    intro sol bl groups origs index im mo mop hN hst hclean sol2 bl2 groups2 im2 hloop
    have hL : groups.length = 0 := by
      by_contra hne
      have h0 : 0 < groups.length := Nat.pos_of_ne_zero hne
      have h2 : 0 < groups.length * (groups.length + 1) := Nat.mul_pos h0 (by omega)
      omega
    have hend : ¬ index < groups.length := by omega
    rw [solution_loop_end sol bl groups index im mo mop hend] at hloop
    simp only [Option.some.injEq, Prod.mk.injEq] at hloop
    obtain ⟨rfl, rfl, rfl, rfl⟩ := hloop
    refine ⟨origs, hst, ?_, le_refl _⟩
    intro g hg
    rw [List.length_eq_zero.mp hL] at hg
    exact absurd hg (List.not_mem_nil g)
  | succ N ih =>
    intro sol bl groups origs index im mo mop hN hst hclean sol2 bl2 groups2 im2 hloop
    by_cases hidx : index < groups.length
    · -- one more loop iteration
      have hlen90 : sol.length = 90 := hst.1
      have hb : BoardOK sol := hst.2.1
      have hcols : ColsOK sol := hst.2.2.1
      have hF : List.Forall₂ Derives origs groups := hst.2.2.2.1
      have hsub : origs.Sublist input := hst.2.2.2.2.1
      have hdisj : ∀ g0 ∈ input, g0 ∈ origs ∨ Placed g0 sol := hst.2.2.2.2.2.1
      have hframe0 := hst.2.2.2.2.2.2
      have horlen : origs.length = groups.length := hF.length_eq
      have hidxo : index < origs.length := by omega
      have hog : Derives (origs.getD index default) (groups.getD index default) :=
        forall₂_getD hF default default index hidxo
      have hogmem : origs.getD index default ∈ origs := getD_mem_of_lt hidxo
      have hoginput : origs.getD index default ∈ input := hsub.subset hogmem
      have hwfog : GroupWF (origs.getD index default) := hwf _ hoginput
      have hdvg : Derives (origs.getD index default)
          ((groups.getD index default).get_updated_group sol bl).2.2.1 :=
        derives_trans hog (gug_derives _ sol bl)
      rcases Nat.lt_or_ge ((groups.getD index default).get_updated_group sol bl).1 2 with hlt2 | hge2
      · have h01 : ((groups.getD index default).get_updated_group sol bl).1 = 0 ∨
            ((groups.getD index default).get_updated_group sol bl).1 = 1 := by omega
        rcases h01 with h0 | h1
        · rw [solution_loop_step_zero sol bl groups index im mo mop hidx h0] at hloop
          exact absurd hloop (by simp)
        · -- exactly one option left: write it, drop the group, restart
          rw [solution_loop_step_one sol bl groups index im mo mop hidx h1] at hloop
          have hvopt : ((groups.getD index default).get_updated_group sol bl).2.2.1.options.length
              = 1 := by
            rw [gug_group_options]
            rw [gug_opt_cnt] at h1
            exact h1
          have hoptmem : ((groups.getD index default).get_updated_group sol bl).2.2.1.options.getD
              0 [] ∈ ((groups.getD index default).get_updated_group sol bl).2.2.1.options :=
            (mem_iff_getD []).mpr ⟨0, by omega, rfl⟩
          have hoptorig : ((groups.getD index default).get_updated_group sol bl).2.2.1.options.getD
              0 [] ∈ (origs.getD index default).options := hdvg.2.2.2 _ hoptmem
          have hoprops := hwfog.2.2.2 _ hoptorig
          have hpos : ((groups.getD index default).get_updated_group sol bl).2.2.1.positions =
              (origs.getD index default).positions := hdvg.1
          have hcleanopt : CleanOpt (origs.getD index default).positions
              (((groups.getD index default).get_updated_group sol bl).2.2.1.options.getD 0 [])
              sol := by
            have hcl := gug_clean (groups.getD index default) sol bl _ hoptmem
            rw [hpos] at hcl
            exact hcl
          have happly : ((groups.getD index default).get_updated_group sol bl).2.2.1.apply_option_to_field
              sol 0 = write_digits (origs.getD index default).positions
                (((groups.getD index default).get_updated_group sol bl).2.2.1.options.getD 0 [])
                sol := by
            rw [Group.apply_option_to_field, hpos]
          rw [happly] at hloop
          obtain ⟨hl90, hbo, hco, hfr, hvl⟩ := place_preserves sol
            (origs.getD index default).positions
            (((groups.getD index default).get_updated_group sol bl).2.2.1.options.getD 0 [])
            hlen90 hb hcols hwfog.2.1 hwfog.2.2.1 hoprops.1
            (valid_line_distinct hoprops.2) hcleanopt
          have hlen_erase : (groups.eraseIdx index).length = groups.length - 1 := by
            simp [List.length_eraseIdx, hidx]
          have hN2 : (groups.eraseIdx index).length * ((groups.eraseIdx index).length + 1) +
              ((groups.eraseIdx index).length - 0) ≤ N := by
            rw [hlen_erase]
            have := loop_measure_drop_erase groups.length index hidx
            omega
          have hst2 : StateOK input isol
              (write_digits (origs.getD index default).positions
                (((groups.getD index default).get_updated_group sol bl).2.2.1.options.getD 0 [])
                sol)
              (origs.eraseIdx index) (groups.eraseIdx index) := by
            refine ⟨hl90, hbo, hco, forall₂_eraseIdx hF index,
              (List.eraseIdx_sublist origs index).trans hsub, ?_, ?_⟩
            · intro g0 h0
              by_cases heq0 : g0 = origs.getD index default
              · right
                subst heq0
                exact ⟨_, hoptorig, fun i hi => hvl i hi⟩
              · rcases hdisj g0 h0 with hin | hpl
                · left
                  exact mem_eraseIdx_of_ne (hsub.nodup hnd_input) hidxo hin heq0
                · right
                  obtain ⟨o2, ho2, hov⟩ := hpl
                  refine ⟨o2, ho2, fun i hi => ?_⟩
                  rw [hfr _ ?_]
                  · exact hov i hi
                  · have hqmem : g0.positions.getD i 0 ∈ g0.positions :=
                      (mem_iff_getD 0).mpr ⟨i, hi, rfl⟩
                    rcases heqd _ hoginput g0 h0 with he | hpd2
                    · exact absurd he.symm heq0
                    · exact fun hin2 => hpd2 _ hin2 hqmem
            · intro q hqout
              rw [hfr q (hqout _ hoginput)]
              exact hframe0 q hqout
          obtain ⟨origs2, hst3, hcl3, hle3⟩ := ih _ _ _ _ _ _ _ _ hN2 hst2
            (fun k hk => absurd hk (by omega)) sol2 bl2 groups2 im2 hloop
          exact ⟨origs2, hst3, hcl3, by omega⟩
      · -- at least two options: put the updated group back and advance
        have hsetg : List.insertIdx index
            ((groups.getD index default).get_updated_group sol bl).2.2.1
            (groups.eraseIdx index) =
            groups.set index ((groups.getD index default).get_updated_group sol bl).2.2.1 :=
          eraseIdx_insertIdx_eq_set groups index _ hidx
        have hlen_set : (groups.set index
            ((groups.getD index default).get_updated_group sol bl).2.2.1).length =
            groups.length := List.length_set groups index _
        have hN2 : (groups.set index
              ((groups.getD index default).get_updated_group sol bl).2.2.1).length *
            ((groups.set index
              ((groups.getD index default).get_updated_group sol bl).2.2.1).length + 1) +
            ((groups.set index
              ((groups.getD index default).get_updated_group sol bl).2.2.1).length -
              (index + 1)) ≤ N := by
          rw [hlen_set]
          have := loop_measure_drop_step groups.length index hidx
          omega
        have hst2 : StateOK input isol sol origs
            (groups.set index ((groups.getD index default).get_updated_group sol bl).2.2.1) := by
          refine ⟨hlen90, hb, hcols, ?_, hsub, hdisj, hframe0⟩
          exact forall₂_set_right hF default index _ hidxo hdvg
        have hclean2 : ∀ k, k < index + 1 →
            Clean ((groups.set index
              ((groups.getD index default).get_updated_group sol bl).2.2.1).getD k default)
              sol := by
          intro k hk
          by_cases hki : k = index
          · subst hki
            rw [getD_set_eq _ default hidx]
            exact gug_clean _ sol bl
          · rw [getD_set_ne _ default (fun e => hki e.symm)]
            exact hclean k (by omega)
        rcases Nat.lt_or_ge
            (((groups.getD index default).get_updated_group sol bl).1 * mop)
            (mo * ((groups.getD index default).get_updated_group sol bl).2.1) with hcmp | hcmp
        · rw [solution_loop_step_more_update sol bl groups index im mo mop hidx hge2 hcmp,
            hsetg] at hloop
          obtain ⟨origs2, hst3, hcl3, hle3⟩ := ih _ _ _ _ _ _ _ _ hN2 hst2 hclean2
            sol2 bl2 groups2 im2 hloop
          exact ⟨origs2, hst3, hcl3, by omega⟩
        · have hcmp2 : ¬ (((groups.getD index default).get_updated_group sol bl).1 * mop <
              mo * ((groups.getD index default).get_updated_group sol bl).2.1) := by omega
          rw [solution_loop_step_more_keep sol bl groups index im mo mop hidx hge2 hcmp2,
            hsetg] at hloop
          obtain ⟨origs2, hst3, hcl3, hle3⟩ := ih _ _ _ _ _ _ _ _ hN2 hst2 hclean2
            sol2 bl2 groups2 im2 hloop
          exact ⟨origs2, hst3, hcl3, by omega⟩
    · -- the loop ends
      rw [solution_loop_end sol bl groups index im mo mop hidx] at hloop
      simp only [Option.some.injEq, Prod.mk.injEq] at hloop
      obtain ⟨rfl, rfl, rfl, rfl⟩ := hloop
      refine ⟨origs, hst, ?_, le_refl _⟩
      intro g hg
      rcases (mem_iff_getD default).mp hg with ⟨k, hk, hgk⟩
      have := hclean k (by omega)
      rw [hgk] at this
      exact this

/-! ### Solver-level soundness -/

theorem forall₂_mem_left {α β : Type} {R : α → β → Prop} {l₁ : List α} {l₂ : List β}
    (h : List.Forall₂ R l₁ l₂) : ∀ a ∈ l₁, ∃ b ∈ l₂, R a b := by
  induction h with
  | nil => intro a ha; exact absurd ha (List.not_mem_nil a)
  | cons hab _ ih =>
    intro a ha
    rcases List.mem_cons.mp ha with h | h
    · exact ⟨_, List.mem_cons_self _ _, h ▸ hab⟩
    · rcases ih a h with ⟨b, hb, hbr⟩
      exact ⟨b, List.mem_cons_of_mem _ hb, hbr⟩

theorem placed_of_derives {g0 g : Group} {sol : List Nat} (hd : Derives g0 g)
    (hp : Placed g sol) : Placed g0 sol := by
  obtain ⟨o, ho, hov⟩ := hp
  refine ⟨o, hd.2.2.2 o ho, fun i hi => ?_⟩
  have := hov i (by rw [hd.1]; exact hi)
  rw [hd.1] at this
  exact this

theorem not_mem_eraseIdx_self {α : Type} [Inhabited α] {l : List α} :
    ∀ {i : Nat}, l.Nodup → i < l.length → l.getD i default ∉ l.eraseIdx i := by
  induction l with
  | nil => intro i _ hi; exact absurd hi (Nat.not_lt_zero i)
  | cons x xs ih =>
    intro i hnd hi
    match i with
    | 0 =>
      rw [List.eraseIdx_cons_zero, List.getD_cons_zero]
      exact (List.nodup_cons.mp hnd).1
    | i + 1 =>
      rw [List.eraseIdx_cons_succ, List.getD_cons_succ]
      intro hmem
      rcases List.mem_cons.mp hmem with he | hmem2
      · have : xs.getD i default ∈ xs := getD_mem_of_lt (Nat.lt_of_succ_lt_succ hi)
        exact (List.nodup_cons.mp hnd).1 (he ▸ this)
      · exact ih (List.nodup_cons.mp hnd).2 (Nat.lt_of_succ_lt_succ hi) hmem2

theorem first_success_congr {β : Type} {f g : Nat → Except String (Option β)} :
    ∀ l : List Nat, (∀ a ∈ l, f a = g a) → first_success f l = first_success g l := by
  intro l
  induction l with
  | nil => intro _; rfl
  | cons a rest ih =>
    intro h
    rw [first_success, first_success, h a (List.mem_cons_self a rest),
      ih (fun b hb => h b (List.mem_cons_of_mem a hb))]

theorem first_success_exists {β : Type} {f : Nat → Except String (Option β)} :
    ∀ {l : List Nat} {x : β}, first_success f l = .ok (some x) →
      ∃ i ∈ l, f i = .ok (some x) := by
  intro l
  induction l with
  | nil =>
    intro x h
    rw [first_success] at h
    exact absurd h (by simp)
  | cons a rest ih =>
    intro x h
    rw [first_success] at h
    split at h
    · exact absurd h (by simp)
    · rename_i y heq
      simp only [Except.ok.injEq, Option.some.injEq] at h
      exact ⟨a, List.mem_cons_self a rest, by rw [heq, h]⟩
    · rename_i heq
      obtain ⟨i, hi, hfi⟩ := ih h
      exact ⟨i, List.mem_cons_of_mem a hi, hfi⟩

theorem first_success_cons_ok_some {β : Type} (f : Nat → Except String (Option β)) (i : Nat)
    (rest : List Nat) (x : β) (h : f i = .ok (some x)) :
    first_success f (i :: rest) = .ok (some x) := by
  rw [first_success, h]

theorem solve_steps_sound :
    ∀ (fuel : Nat) (p final : Puzzle),
      PuzzleWF p → Puzzle.solve_steps fuel p = .ok (some final) →
      final.solution.length = 90 ∧ BoardOK final.solution ∧ ColsOK final.solution ∧
      (∀ g0 ∈ p.groups, Placed g0 final.solution) ∧
      (∀ q, (∀ g0 ∈ p.groups, q ∉ g0.positions) →
        final.solution.getD q 0 = p.solution.getD q 0) := by
  intro fuel
  induction fuel with
  | zero =>
    intro p final _ h
    exact absurd h (by simp [Puzzle.solve_steps])
  | succ fuel ih =>
    intro p final hwfp hsolve
    obtain ⟨hlen90, hb, hc, hgwf, hpdg⟩ := hwfp
    have hnd_input : p.groups.Nodup :=
      nodup_of_pairwise_posdisj hpdg (fun g hg => (hgwf g hg).1)
    have heqd : ∀ g0 ∈ p.groups, ∀ g1 ∈ p.groups, g0 = g1 ∨ PosDisj g0 g1 := by
      intro g0 h0 g1 h1
      by_cases he : g0 = g1
      · exact Or.inl he
      · exact Or.inr (List.Pairwise.forall (fun a b h => posdisj_symm h) hpdg h0 h1 he)
    rw [Puzzle.solve_steps] at hsolve
    cases hloop : solution_loop p.solution p.block_list p.groups 0 0 1000 1 with
    | none =>
      have hstep : p.get_next_solution_step = .ok (none, none) := by
        rw [Puzzle.get_next_solution_step, hloop]
      rw [hstep] at hsolve
      exact absurd hsolve (by simp)
    | some res =>
      obtain ⟨sol2, bl2, groups2, im2⟩ := res
      have hst0 : StateOK p.groups p.solution p.solution p.groups p.groups :=
        ⟨hlen90, hb, hc, List.forall₂_same.mpr (fun g _ => derives_refl g),
         List.Sublist.refl _, fun g0 h0 => Or.inl h0, fun q _ => rfl⟩
      obtain ⟨origs2, hst2, hcl2, hle2⟩ := solution_loop_sound p.groups p.solution
        hgwf hpdg (p.groups.length * (p.groups.length + 1) + p.groups.length)
        p.solution p.block_list p.groups p.groups 0 0 1000 1 (by omega) hst0
        (fun k hk => absurd hk (by omega)) sol2 bl2 groups2 im2 hloop
      obtain ⟨hs90, hsb, hsc, hsF, hssub, hsdisj, hsframe⟩ := hst2
      have horlen2 : origs2.length = groups2.length := hsF.length_eq
      have hndorigs2 : origs2.Nodup := hssub.nodup hnd_input
      by_cases hg2 : 0 < groups2.length
      · -- a branch group was returned, or the panic path was taken
        by_cases himlt : im2 < groups2.length
        case neg =>
          have hstep : p.get_next_solution_step =
              .error "panic: removal index out of bounds" := by
            rw [Puzzle.get_next_solution_step, hloop]
            simp [hg2, himlt]
          rw [hstep] at hsolve
          exact absurd hsolve (by simp)
        -- the solver tries the branch group\x27s options
        have hstep : p.get_next_solution_step =
            .ok (some { p.copy_without_groups with
                      solution := sol2,
                      block_list := bl2,
                      groups := groups2.eraseIdx im2 },
             some (groups2.getD im2 default)) := by
          rw [Puzzle.get_next_solution_step, hloop]
          simp [hg2, himlt]
        rw [hstep] at hsolve
        have himlt2 : im2 < origs2.length := by omega
        have hbgmem : groups2.getD im2 default ∈ groups2 := getD_mem_of_lt himlt
        have hder_bg : Derives (origs2.getD im2 default) (groups2.getD im2 default) :=
          forall₂_getD hsF default default im2 himlt2
        have hog2in : origs2.getD im2 default ∈ p.groups :=
          hssub.subset (getD_mem_of_lt himlt2)
        have hwfog2 : GroupWF (origs2.getD im2 default) := hgwf _ hog2in
        obtain ⟨k, hkmem, hk⟩ := first_success_exists hsolve
        have hklt : k < (groups2.getD im2 default).options.length := List.mem_range.mp hkmem
        have hoptm : (groups2.getD im2 default).options.getD k [] ∈
            (groups2.getD im2 default).options := (mem_iff_getD []).mpr ⟨k, hklt, rfl⟩
        have hopt_og : (groups2.getD im2 default).options.getD k [] ∈
            (origs2.getD im2 default).options := hder_bg.2.2.2 _ hoptm
        have hoprops := hwfog2.2.2.2 _ hopt_og
        have hposbg : (groups2.getD im2 default).positions =
            (origs2.getD im2 default).positions := hder_bg.1
        have hcleanopt : CleanOpt (origs2.getD im2 default).positions
            ((groups2.getD im2 default).options.getD k []) sol2 := by
          have := hcl2 _ hbgmem _ hoptm
          rw [hposbg] at this
          exact this
        obtain ⟨h290, h2b, h2c, h2fr, h2vl⟩ := place_preserves sol2
          (origs2.getD im2 default).positions ((groups2.getD im2 default).options.getD k [])
          hs90 hsb hsc hwfog2.2.1 hwfog2.2.2.1 hoprops.1
          (valid_line_distinct hoprops.2) hcleanopt
        have hsolp : (({ p.copy_without_groups with
              solution := sol2,
              block_list := bl2,
              groups := groups2.eraseIdx im2 } : Puzzle).set_option_for_group
              (groups2.getD im2 default) k).solution =
            write_digits (origs2.getD im2 default).positions
              ((groups2.getD im2 default).options.getD k []) sol2 := by
          rw [Puzzle.set_option_for_group, Group.apply_option_to_field, hposbg]
        have hFu : List.Forall₂ Derives (origs2.eraseIdx im2) (groups2.eraseIdx im2) :=
          forall₂_eraseIdx hsF im2
        have hu_orig : ∀ h ∈ groups2.eraseIdx im2,
            ∃ oh ∈ origs2.eraseIdx im2, Derives oh h :=
          forall₂_mem_right hFu
        have hohne : ∀ oh ∈ origs2.eraseIdx im2, oh ≠ origs2.getD im2 default := by
          intro oh hoh he
          exact not_mem_eraseIdx_self hndorigs2 himlt2 (he ▸ hoh)
        have hdisj_bg : ∀ h ∈ groups2.eraseIdx im2, ∀ q ∈ (origs2.getD im2 default).positions,
            q ∉ h.positions := by
          intro h hh q hq
          obtain ⟨oh, hoh, hdoh⟩ := hu_orig h hh
          have hohin : oh ∈ p.groups := hssub.subset (mem_of_mem_eraseIdx hoh)
          rcases heqd _ hog2in oh hohin with he | hpd2
          · exact absurd he.symm (hohne oh hoh)
          · rw [hdoh.1]
            exact hpd2 q hq
        have hwfp2 : PuzzleWF (({ p.copy_without_groups with
              solution := sol2,
              block_list := bl2,
              groups := groups2.eraseIdx im2 } : Puzzle).set_option_for_group
              (groups2.getD im2 default) k) := by
          refine ⟨by rw [hsolp]; exact h290, by rw [hsolp]; exact h2b, by rw [hsolp]; exact h2c,
            ?_, ?_⟩
          · show ∀ g ∈ groups2.eraseIdx im2, GroupWF g
            intro g hg
            obtain ⟨oh, hoh, hdoh⟩ := hu_orig g hg
            exact groupwf_of_derives (hgwf oh (hssub.subset (mem_of_mem_eraseIdx hoh))) hdoh
          · show List.Pairwise PosDisj (groups2.eraseIdx im2)
            refine @pairwise_forall₂_transport Group Group Derives PosDisj PosDisj
              (origs2.eraseIdx im2) (groups2.eraseIdx im2) hFu ?_ ?_
            · intro a a2 b b2 hab hab2 hS q hq
              rw [hab2.1]
              exact hS q (hab.1 ▸ hq)
            · exact List.Pairwise.sublist (List.eraseIdx_sublist origs2 im2)
                (List.Pairwise.sublist hssub hpdg)
        obtain ⟨f90, fb, fc, fplaced, fframe⟩ := ih _ final hwfp2 hk
        have hplace_og2 : Placed (origs2.getD im2 default) final.solution := by
          refine ⟨(groups2.getD im2 default).options.getD k [], hopt_og, fun i hi => ?_⟩
          have hqmem : (origs2.getD im2 default).positions.getD i 0 ∈
              (origs2.getD im2 default).positions := (mem_iff_getD 0).mpr ⟨i, hi, rfl⟩
          have hout : ∀ h ∈ groups2.eraseIdx im2,
              (origs2.getD im2 default).positions.getD i 0 ∉ h.positions :=
            fun h hh => hdisj_bg h hh _ hqmem
          have := fframe ((origs2.getD im2 default).positions.getD i 0) hout
          rw [this, hsolp]
          exact h2vl i hi
        refine ⟨f90, fb, fc, ?_, ?_⟩
        · intro g0 h0
          by_cases hgo : g0 = origs2.getD im2 default
          · rw [hgo]
            exact hplace_og2
          · by_cases hgin : g0 ∈ origs2.eraseIdx im2
            · obtain ⟨h, hh, hdh⟩ := forall₂_mem_left hFu g0 hgin
              exact placed_of_derives hdh (fplaced h hh)
            · have hpl2 : Placed g0 sol2 := by
                rcases hsdisj g0 h0 with hin2 | hpl2
                · exfalso
                  apply hgo
                  by_contra hne2
                  exact hgin (mem_eraseIdx_of_ne hndorigs2 himlt2 hin2 hne2)
                · exact hpl2
              have hdisj_g0 : ∀ q ∈ g0.positions, q ∉ (origs2.getD im2 default).positions := by
                intro q hq
                rcases heqd g0 h0 _ hog2in with he | hpd2
                · exact absurd he hgo
                · exact hpd2 q hq
              have hdisj_u : ∀ q ∈ g0.positions, ∀ h ∈ groups2.eraseIdx im2,
                  q ∉ h.positions := by
                intro q hq h hh
                obtain ⟨oh, hoh, hdoh⟩ := hu_orig h hh
                have hohin : oh ∈ p.groups := hssub.subset (mem_of_mem_eraseIdx hoh)
                have hohne0 : g0 ≠ oh := by
                  intro he
                  exact hgin (he ▸ hoh)
                rcases heqd g0 h0 oh hohin with he | hpd2
                · exact absurd he hohne0
                · rw [hdoh.1]
                  exact hpd2 q hq
              obtain ⟨o2, ho2, hov⟩ := hpl2
              refine ⟨o2, ho2, fun i hi => ?_⟩
              have hqmem : g0.positions.getD i 0 ∈ g0.positions :=
                (mem_iff_getD 0).mpr ⟨i, hi, rfl⟩
              rw [fframe _ (fun h hh => hdisj_u _ hqmem h hh), hsolp,
                h2fr _ (hdisj_g0 _ hqmem)]
              exact hov i hi
        · intro q hqout
          have h1 : final.solution.getD q 0 =
              (write_digits (origs2.getD im2 default).positions
                ((groups2.getD im2 default).options.getD k []) sol2).getD q 0 := by
            rw [← hsolp]
            refine fframe q ?_
            intro h hh
            obtain ⟨oh, hoh, hdoh⟩ := hu_orig h hh
            rw [hdoh.1]
            exact hqout oh (hssub.subset (mem_of_mem_eraseIdx hoh))
          rw [h1, h2fr q (hqout _ hog2in)]
          exact hsframe q hqout
      · -- no branch group: the board is the answer
        have hg0 : groups2 = [] := List.length_eq_zero.mp (by omega)
        have hstep : p.get_next_solution_step =
            .ok (some { p.copy_without_groups with solution := sol2, block_list := bl2 },
              none) := by
          rw [Puzzle.get_next_solution_step, hloop]
          simp [hg2]
        rw [hstep] at hsolve
        simp only [Except.ok.injEq, Option.some.injEq] at hsolve
        subst hsolve
        have horigs0 : origs2 = [] := by
          rw [hg0] at horlen2
          exact List.length_eq_zero.mp horlen2
        refine ⟨hs90, hsb, hsc, ?_, ?_⟩
        · intro g0 h0
          rcases hsdisj g0 h0 with hin2 | hpl2
          · rw [horigs0] at hin2
            exact absurd hin2 (List.not_mem_nil g0)
          · exact hpl2
        · intro q hqout
          exact hsframe q hqout

/-! ### Fuel adequacy: the recursion budget of `Puzzle.solve` never runs out -/

theorem solution_loop_length :
    ∀ N sol bl (groups : List Group) index im mo mop,
      groups.length * (groups.length + 1) + (groups.length - index) ≤ N →
      ∀ sol2 bl2 groups2 im2,
        solution_loop sol bl groups index im mo mop = some (sol2, bl2, groups2, im2) →
        groups2.length ≤ groups.length := by
  intro N
  induction N with
  | zero =>
    intro sol bl groups index im mo mop hN sol2 bl2 groups2 im2 hloop
    have hL : groups.length = 0 := by
      by_contra hne
      have h0 : 0 < groups.length := Nat.pos_of_ne_zero hne
      have h2 : 0 < groups.length * (groups.length + 1) := Nat.mul_pos h0 (by omega)
      omega
    rw [solution_loop_end sol bl groups index im mo mop (by omega)] at hloop
    simp only [Option.some.injEq, Prod.mk.injEq] at hloop
    obtain ⟨rfl, rfl, rfl, rfl⟩ := hloop
    exact le_refl _
  | succ N ih =>
    intro sol bl groups index im mo mop hN sol2 bl2 groups2 im2 hloop
    by_cases hidx : index < groups.length
    · rcases Nat.lt_or_ge ((groups.getD index default).get_updated_group sol bl).1 2 with hlt2 | hge2
      · have h01 : ((groups.getD index default).get_updated_group sol bl).1 = 0 ∨
            ((groups.getD index default).get_updated_group sol bl).1 = 1 := by omega
        rcases h01 with h0 | h1
        · rw [solution_loop_step_zero sol bl groups index im mo mop hidx h0] at hloop
          exact absurd hloop (by simp)
        · rw [solution_loop_step_one sol bl groups index im mo mop hidx h1] at hloop
          have hlen_erase : (groups.eraseIdx index).length = groups.length - 1 := by
            simp [List.length_eraseIdx, hidx]
          have hN2 : (groups.eraseIdx index).length * ((groups.eraseIdx index).length + 1) +
              ((groups.eraseIdx index).length - 0) ≤ N := by
            rw [hlen_erase]
            have := loop_measure_drop_erase groups.length index hidx
            omega
          have h1le := ih _ _ _ _ _ _ _ hN2 sol2 bl2 groups2 im2 hloop
          omega
      · have hsetg : List.insertIdx index
            ((groups.getD index default).get_updated_group sol bl).2.2.1
            (groups.eraseIdx index) =
            groups.set index ((groups.getD index default).get_updated_group sol bl).2.2.1 :=
          eraseIdx_insertIdx_eq_set groups index _ hidx
        have hlen_set : (groups.set index
            ((groups.getD index default).get_updated_group sol bl).2.2.1).length =
            groups.length := List.length_set groups index _
        have hN2 : (groups.set index
              ((groups.getD index default).get_updated_group sol bl).2.2.1).length *
            ((groups.set index
              ((groups.getD index default).get_updated_group sol bl).2.2.1).length + 1) +
            ((groups.set index
              ((groups.getD index default).get_updated_group sol bl).2.2.1).length -
              (index + 1)) ≤ N := by
          rw [hlen_set]
          have := loop_measure_drop_step groups.length index hidx
          omega
        rcases Nat.lt_or_ge
            (((groups.getD index default).get_updated_group sol bl).1 * mop)
            (mo * ((groups.getD index default).get_updated_group sol bl).2.1) with hcmp | hcmp
        · rw [solution_loop_step_more_update sol bl groups index im mo mop hidx hge2 hcmp,
            hsetg] at hloop
          have h1le := ih _ _ _ _ _ _ _ hN2 sol2 bl2 groups2 im2 hloop
          omega
        · have hcmp2 : ¬ (((groups.getD index default).get_updated_group sol bl).1 * mop <
              mo * ((groups.getD index default).get_updated_group sol bl).2.1) := by omega
          rw [solution_loop_step_more_keep sol bl groups index im mo mop hidx hge2 hcmp2,
            hsetg] at hloop
          have h1le := ih _ _ _ _ _ _ _ hN2 sol2 bl2 groups2 im2 hloop
          omega
    · rw [solution_loop_end sol bl groups index im mo mop hidx] at hloop
      simp only [Option.some.injEq, Prod.mk.injEq] at hloop
      obtain ⟨rfl, rfl, rfl, rfl⟩ := hloop
      exact le_refl _

theorem gnss_branch_shrinks (p u : Puzzle) (g : Group)
    (h : p.get_next_solution_step = .ok (some u, some g)) :
    u.groups.length < p.groups.length := by
  rw [Puzzle.get_next_solution_step] at h
  cases hloop : solution_loop p.solution p.block_list p.groups 0 0 1000 1 with
  | none => rw [hloop] at h; exact absurd h (by simp)
  | some res =>
    obtain ⟨sol2, bl2, groups2, im2⟩ := res
    rw [hloop] at h
    have hle := solution_loop_length
      (p.groups.length * (p.groups.length + 1) + p.groups.length)
      p.solution p.block_list p.groups 0 0 1000 1 (by omega)
      sol2 bl2 groups2 im2 hloop
    by_cases hg2 : 0 < groups2.length
    · by_cases him2 : im2 < groups2.length
      · simp only [hg2, him2, if_pos] at h
        simp only [Except.ok.injEq, Prod.mk.injEq, Option.some.injEq] at h
        obtain ⟨hu, _⟩ := h
        rw [← hu]
        show (groups2.eraseIdx im2).length < p.groups.length
        rw [List.length_eraseIdx]
        simp [him2]
        omega
      · simp only [hg2, if_pos, him2, if_neg] at h
        exact absurd h (by simp)
    · simp only [hg2, if_neg] at h
      exact absurd h (by simp)

theorem findSome?_congr {α β : Type} {f g : α → Option β} :
    ∀ l : List α, (∀ a ∈ l, f a = g a) → l.findSome? f = l.findSome? g := by
  intro l
  induction l with
  | nil => intro _; rfl
  | cons a rest ih =>
    intro h
    rw [List.findSome?_cons, List.findSome?_cons, h a (List.mem_cons_self a rest),
      ih (fun b hb => h b (List.mem_cons_of_mem a hb))]

theorem solve_steps_congr :
    ∀ n m (p : Puzzle), p.groups.length < n → p.groups.length < m →
      Puzzle.solve_steps n p = Puzzle.solve_steps m p := by
  intro n
  induction n with
  | zero => intro m p hn; exact absurd hn (Nat.not_lt_zero _)
  | succ n ih =>
    intro m p hn hm
    match m with
    | 0 => exact absurd hm (Nat.not_lt_zero _)
    | m + 1 =>
      rw [Puzzle.solve_steps, Puzzle.solve_steps]
      cases hstep : p.get_next_solution_step with
      | error e => rfl
      | ok pair =>
        obtain ⟨u?, g?⟩ := pair
        cases g? with
        | none => cases u? <;> rfl
        | some g =>
          cases u? with
          | none => rfl
          | some u =>
            show first_success (fun option_index => Puzzle.solve_steps n
                (u.set_option_for_group g option_index)) (List.range g.options.length) =
              first_success (fun option_index => Puzzle.solve_steps m
                (u.set_option_for_group g option_index)) (List.range g.options.length)
            refine first_success_congr _ (fun k _ => ?_)
            have hlt : u.groups.length < p.groups.length := gnss_branch_shrinks p u g hstep
            have hgroups : (u.set_option_for_group g k).groups = u.groups := rfl
            exact ih m (u.set_option_for_group g k) (by rw [hgroups]; omega)
              (by rw [hgroups]; omega)

/-- The explicit recursion budget of the embedding is irrelevant: any
budget beyond the group count gives the meaning of the Rust recursion. -/
theorem solve_steps_stable (fuel : Nat) (p : Puzzle) (h : p.groups.length < fuel) :
    Puzzle.solve_steps fuel p = p.solve :=
  solve_steps_congr fuel (p.groups.length + 1) p h (by omega)

/-! ### Decidability of the well-formedness predicates, for concrete puzzles -/

instance (p q : Nat) : Decidable (same_line p q) :=
  decidable_of_iff (p / 10 = q / 10 ∨ p % 10 = q % 10) Iff.rfl

instance (g : Group) : Decidable (GroupWF g) :=
  decidable_of_iff (g.positions ≠ [] ∧ g.positions.Nodup ∧
    (∀ q ∈ g.positions, q < 90 ∧ q % 10 < 9) ∧
    (∀ o ∈ g.options, o.length = g.positions.length ∧
      is_valid_option_raw g.positions g.operation g.result o = true)) Iff.rfl

instance (g h : Group) : Decidable (PosDisj g h) :=
  decidable_of_iff (∀ q ∈ g.positions, q ∉ h.positions) Iff.rfl

theorem getD_replicate_zero (n i : Nat) : (List.replicate n (0 : Nat)).getD i 0 = 0 := by
  rcases Nat.lt_or_ge i n with h | h
  · rw [List.getD_eq_getElem _ _ (by simpa using h)]
    exact List.getElem_replicate _ _
  · rw [List.getD_eq_getElem?_getD, List.getElem?_eq_none (by simpa using h)]
    rfl

theorem boardok_zeros : BoardOK (List.replicate 90 0) := by
  intro p _ q _ _ _ hnz
  rw [getD_replicate_zero] at hnz
  exact absurd rfl hnz

theorem colsok_zeros : ColsOK (List.replicate 90 0) := by
  intro p _ hnz
  rw [getD_replicate_zero] at hnz
  exact absurd rfl hnz

/-! ### Claim C1 -/

/-- C1 (amended): Soundness of the solver's output on well-formed puzzles.
For every puzzle whose board has 90 cells and is consistent, whose groups
are well formed (nonempty, duplicate-free, on-board positions; every
candidate as long as its position list and accepted by `is_valid_option`)
and pairwise position-disjoint: if `solve` returns a puzzle without
panicking, then on its board every pair of distinct positions that share a
row or share a column and both hold a nonzero digit hold different digits,
and every group of the original puzzle is assigned one of its candidate
tuples, whose digits satisfy the group's arithmetic operation and
result. -/
theorem kenken_solve_sound (p final : Puzzle) (hwf : PuzzleWF p)
    (hs : p.solve = .ok (some final)) :
    (∀ q, q < 90 → ∀ r, r < 90 → q ≠ r → same_line q r →
      final.solution.getD q 0 ≠ 0 → final.solution.getD r 0 ≠ 0 →
      final.solution.getD q 0 ≠ final.solution.getD r 0) ∧
    (∀ g0 ∈ p.groups, ∃ o ∈ g0.options,
      g0.positions.map (fun q => final.solution.getD q 0) = o ∧
      arith_ok g0.operation g0.result o = true) := by
  obtain ⟨f90, fb, fc, fplaced, _⟩ :=
    solve_steps_sound (p.groups.length + 1) p final hwf hs
  refine ⟨fb, ?_⟩
  intro g0 h0
  obtain ⟨o, ho, hov⟩ := fplaced g0 h0
  have hprops := (hwf.2.2.2.1 g0 h0).2.2.2 o ho
  refine ⟨o, ho, ?_, valid_arith hprops.2⟩
  apply List.ext_getElem
  · rw [List.length_map]
    exact hprops.1.symm
  · intro i h1 h2
    rw [List.getElem_map]
    have hi : i < g0.positions.length := by simpa using h1
    have := hov i hi
    rw [List.getD_eq_getElem _ 0 hi] at this
    rw [this, List.getD_eq_getElem o 0 h2]

/-! ### A concrete two-cell puzzle, run through the embedded solver -/

/-- The group of the description `3+00.01` for dimension 2 (a row pair
summing to 3). -/
def gW : Group := ⟨3, '+', [0, 1], [[1, 2], [2, 1]], true, false⟩

theorem gW_new_kenken : Group.new_kenken 2 "3+00.01" = .ok gW := rfl

/-- A dimension-2 puzzle holding the single group `gW` on an empty board. -/
def pW : Puzzle := ⟨GameType.KenKen, 2, true, List.replicate 90 0, BlackList.new, [gW]⟩

/-- The blacklist after the first propagation pass over `pW` (the pair
group has one dimension and equal digit sets, so its digits are inserted
for row 0). -/
def blW : BlackList := (gW.get_updated_group (List.replicate 90 0) BlackList.new).2.2.2

/-- `gW` after the first filtering pass: same options, now blacklisted. -/
def gWu : Group := ⟨3, '+', [0, 1], [[1, 2], [2, 1]], true, true⟩

/-- The board after writing option `[1, 2]` of `gW` at positions 0 and 1. -/
def solW : List Nat := ((List.replicate 90 0).set 0 1).set 1 2

/-- The propagated state of `pW` before branching. -/
def uW : Puzzle := ⟨GameType.KenKen, 2, true, List.replicate 90 0, blW, []⟩

/-- The puzzle the embedded solver returns for `pW`. -/
def finalW : Puzzle := ⟨GameType.KenKen, 2, true, solW, blW, []⟩

theorem gW_update_fst : (gW.get_updated_group (List.replicate 90 0) BlackList.new).1 = 2 := rfl

theorem gW_update_grp :
    (gW.get_updated_group (List.replicate 90 0) BlackList.new).2.2.1 = gWu := rfl

theorem loopW : solution_loop (List.replicate 90 0) BlackList.new [gW] 0 0 1000 1 =
    some (List.replicate 90 0, blW, [gWu], 0) := by
  rw [solution_loop_step_more_update (List.replicate 90 0) BlackList.new [gW] 0 0 1000 1
    (by decide) (by rw [show ([gW] : List Group).getD 0 default = gW from rfl, gW_update_fst])
    (by rw [show ([gW] : List Group).getD 0 default = gW from rfl]; decide)]
  rw [show ([gW] : List Group).getD 0 default = gW from rfl, gW_update_grp]
  rw [show List.insertIdx 0 gWu (([gW] : List Group).eraseIdx 0) = [gWu] from rfl]
  exact solution_loop_end _ _ _ _ _ _ _ (by decide)

theorem gnssW : pW.get_next_solution_step = .ok (some uW, some gWu) := by
  rw [Puzzle.get_next_solution_step,
    show solution_loop pW.solution pW.block_list pW.groups 0 0 1000 1 =
      some (List.replicate 90 0, blW, [gWu], 0) from loopW]
  rfl

theorem loopW2 : solution_loop solW blW ([] : List Group) 0 0 1000 1 =
    some (solW, blW, [], 0) :=
  solution_loop_end _ _ _ _ _ _ _ (by decide)

theorem gnssW2 : finalW.get_next_solution_step = .ok (some finalW, none) := by
  rw [Puzzle.get_next_solution_step,
    show solution_loop finalW.solution finalW.block_list finalW.groups 0 0 1000 1 =
      some (solW, blW, [], 0) from loopW2]
  rfl

theorem solveW : Puzzle.solve pW = .ok (some finalW) := by
  show Puzzle.solve_steps 2 pW = .ok (some finalW)
  rw [Puzzle.solve_steps, gnssW]
  show first_success (fun k => Puzzle.solve_steps 1 (uW.set_option_for_group gWu k))
    (List.range gWu.options.length) = .ok (some finalW)
  rw [show List.range gWu.options.length = [0, 1] from rfl]
  refine first_success_cons_ok_some _ 0 [1] finalW ?_
  show Puzzle.solve_steps 1 finalW = .ok (some finalW)
  rw [Puzzle.solve_steps, gnssW2]

theorem pW_wf : PuzzleWF pW :=
  ⟨rfl, boardok_zeros, colsok_zeros, by decide,
    List.pairwise_cons.mpr ⟨fun g hg => absurd hg (List.not_mem_nil g), List.Pairwise.nil⟩⟩

/-- C1, counterexample to the claim as stated: the solver returns a board
for `pW`, and the distinct positions 2 and 3 share row 0 yet hold the same
digit (both are empty, holding 0) — the unqualified "every pair of distinct
positions that share a row or share a column hold different digits" fails
on the returned board. -/
theorem kenken_solve_sound_cex :
    Puzzle.solve pW = .ok (some finalW) ∧ (2 : Nat) ≠ 3 ∧ same_line 2 3 ∧
    finalW.solution.getD 2 0 = finalW.solution.getD 3 0 :=
  ⟨solveW, by decide, Or.inl rfl, rfl⟩

/-- C1, witness: the amended soundness theorem applied to the concrete
puzzle `pW`, whose well-formedness and solver run are computed. -/
theorem kenken_solve_sound_witness :
    PuzzleWF pW ∧ Puzzle.solve pW = .ok (some finalW) ∧
    ((∀ q, q < 90 → ∀ r, r < 90 → q ≠ r → same_line q r →
      finalW.solution.getD q 0 ≠ 0 → finalW.solution.getD r 0 ≠ 0 →
      finalW.solution.getD q 0 ≠ finalW.solution.getD r 0) ∧
    (∀ g0 ∈ pW.groups, ∃ o ∈ g0.options,
      g0.positions.map (fun q => finalW.solution.getD q 0) = o ∧
      arith_ok g0.operation g0.result o = true)) :=
  ⟨pW_wf, solveW, kenken_solve_sound pW finalW pW_wf solveW⟩

/-! ### Claim C7 -/

/-- C7: Exclusion monotonicity.  An insertion unions the new digits with
the previously stored digits of each affected position and never removes a
digit, so the lookup of every position only grows — through a raw
insertion, through `check_options_and_update_black_list`, and through a
whole `get_updated_group` call. -/
theorem black_list_monotone :
    (∀ (bl : BlackList) (positions : List Nat) (digits : Finset Nat) (p : Nat),
      bl.get_position_black_list p ⊆
        (bl.insert_position_black_list positions digits).get_position_black_list p) ∧
    (∀ (bl : BlackList) (positions : List Nat) (options : List (List Nat)) (p : Nat),
      bl.get_position_black_list p ⊆
        (bl.check_options_and_update_black_list positions options).2.get_position_black_list p) ∧
    (∀ (g : Group) (field : List Nat) (bl : BlackList) (p : Nat),
      bl.get_position_black_list p ⊆
        (g.get_updated_group field bl).2.2.2.get_position_black_list p) := by
  have h1 : ∀ (bl : BlackList) (positions : List Nat) (digits : Finset Nat) (p : Nat),
      bl.get_position_black_list p ⊆
        (bl.insert_position_black_list positions digits).get_position_black_list p := by
    intro bl positions digits p
    rw [BlackList.insert_position_black_list, BlackList.get_position_black_list,
      BlackList.get_position_black_list]
    split <;>
      first
      | exact Finset.subset_union_right
      | exact Finset.Subset.refl _
      | (split
         · exact Finset.subset_union_right
         · exact Finset.Subset.refl _)
  have h2 : ∀ (bl : BlackList) (positions : List Nat) (options : List (List Nat)) (p : Nat),
      bl.get_position_black_list p ⊆
        (bl.check_options_and_update_black_list positions options).2.get_position_black_list p := by
    intro bl positions options p
    rw [BlackList.check_options_and_update_black_list]
    split
    · exact h1 bl positions _ p
    · exact Finset.Subset.refl _
  refine ⟨h1, h2, ?_⟩
  intro g field bl p
  rw [Group.get_updated_group]
  split
  · exact h2 bl g.positions _ p
  · exact Finset.Subset.refl _

/-! ### Claim C9 -/

/-- A group holding the same board position twice, with different digits
assigned to the two occurrences by its only option. -/
def gDup : Group := ⟨0, '+', [0, 0], [[1, 2]], true, true⟩

/-- C9, counterexample to the claim as stated: for the group `gDup` with
option index 0 in bounds, `apply_option_to_field` does not leave
`tuple[0]` at `positions[0]` — the later write of `tuple[1]` to the same
cell overwrites it. -/
theorem apply_option_frame_cex :
    0 < gDup.options.length ∧
    (gDup.options.getD 0 []).getD 0 0 = 1 ∧
    (gDup.apply_option_to_field [5, 5] 0).getD (gDup.positions.getD 0 0) 0 = 2 := by
  refine ⟨by decide, rfl, rfl⟩

/-- C9 (amended): for a group whose positions are duplicate-free and on
the board and whose selected option is as long as its position list,
`apply_option_to_field` writes `tuple[i]` to `positions[i]` for every
index, leaves every other board cell unchanged, and keeps the board
length. -/
theorem apply_option_frame (g : Group) (field : List Nat) (option_index : Nat)
    (hk : option_index < g.options.length)
    (hnd : g.positions.Nodup)
    (hlen : (g.options.getD option_index []).length = g.positions.length)
    (hbound : ∀ q ∈ g.positions, q < field.length) :
    (∀ i, i < g.positions.length →
      (g.apply_option_to_field field option_index).getD (g.positions.getD i 0) 0 =
        (g.options.getD option_index []).getD i 0) ∧
    (∀ q, q ∉ g.positions →
      (g.apply_option_to_field field option_index).getD q 0 = field.getD q 0) ∧
    (g.apply_option_to_field field option_index).length = field.length := by
  refine ⟨?_, ?_, write_digits_length _ _ _⟩
  · intro i hi
    exact write_digits_getD_value g.positions (g.options.getD option_index []) field hnd
      hbound i hi (by omega)
  · intro q hq
    exact write_digits_getD_frame _ _ _ q hq

/-- C9, witness: the amended frame property applied to the concrete group
`gW` with option 0 on the empty board. -/
theorem apply_option_frame_witness :
    (0 < gW.options.length ∧ gW.positions.Nodup ∧
      (gW.options.getD 0 []).length = gW.positions.length ∧
      (∀ q ∈ gW.positions, q < (List.replicate 90 0).length)) ∧
    ((∀ i, i < gW.positions.length →
      (gW.apply_option_to_field (List.replicate 90 0) 0).getD (gW.positions.getD i 0) 0 =
        (gW.options.getD 0 []).getD i 0) ∧
    (∀ q, q ∉ gW.positions →
      (gW.apply_option_to_field (List.replicate 90 0) 0).getD q 0 =
        (List.replicate 90 0).getD q 0) ∧
    (gW.apply_option_to_field (List.replicate 90 0) 0).length =
      (List.replicate 90 0).length) :=
  ⟨⟨by decide, by decide, by decide, by decide⟩,
   apply_option_frame gW (List.replicate 90 0) 0 (by decide) (by decide) (by decide) (by decide)⟩

/-! ### The anatomy of a successful group construction -/

theorem new_kenken_ok {dimension : Nat} {s : String} {g : Group}
    (h : Group.new_kenken dimension s = .ok g) :
    g.options = (digit_product dimension g.positions.length).filter
      (fun option => g.is_valid_option option) ∧
    0 < g.options.length ∧
    g.operation ∈ (['c', '+', '-', '*', ':'] : List Char) := by
  rw [Group.new_kenken] at h
  split at h
  · dsimp only at h
    split at h
    · split at h
      · simp only [Except.ok.injEq] at h
        subst h
        rename_i hop5 hlen0
        refine ⟨rfl, hlen0, ?_⟩
        refine (mem_iff_getD ' ').mpr ⟨_, ?_, rfl⟩
        simpa using hop5
      · exact absurd h (by simp)
    · exact absurd h (by simp)
  · exact absurd h (by simp)

/-! ### Claim C8 -/

theorem gug_is_valid_option (g : Group) (field : List Nat) (bl : BlackList) (o : List Nat) :
    (g.get_updated_group field bl).2.2.1.is_valid_option o = g.is_valid_option o := by
  rw [Group.is_valid_option, Group.is_valid_option, gug_group_positions, gug_group_operation,
    gug_group_result]

/-- C8: Candidate validity is invariant under filtering.  Right after
generation every option passes `is_valid_option`; the filtering step only
keeps options that were already present (it never adds or modifies
tuples); and a group all of whose options are valid keeps only valid
options through `get_updated_group` (whose result validates options by the
same positions, operation and result). -/
theorem candidate_validity :
    (∀ (dimension : Nat) (s : String) (g : Group), Group.new_kenken dimension s = .ok g →
      ∀ o ∈ g.options, g.is_valid_option o = true) ∧
    (∀ (g : Group) (field : List Nat) (bl : BlackList),
      ∀ o ∈ (g.get_updated_group field bl).2.2.1.options, o ∈ g.options) ∧
    (∀ (g : Group) (field : List Nat) (bl : BlackList),
      (∀ o ∈ g.options, g.is_valid_option o = true) →
      ∀ o ∈ (g.get_updated_group field bl).2.2.1.options,
        (g.get_updated_group field bl).2.2.1.is_valid_option o = true) := by
  refine ⟨?_, ?_, ?_⟩
  · intro dim s g h o ho
    rw [(new_kenken_ok h).1] at ho
    exact (List.mem_filter.mp ho).2
  · intro g field bl o ho
    rw [gug_group_options] at ho
    exact (filter_options_mem.mp ho).1
  · intro g field bl hval o ho
    rw [gug_group_options] at ho
    rw [gug_is_valid_option]
    exact hval o (filter_options_mem.mp ho).1

/-- C8, witness: both invariance directions at the concrete group `gW`. -/
theorem candidate_validity_witness :
    (Group.new_kenken 2 "3+00.01" = .ok gW ∧
      ∀ o ∈ gW.options, gW.is_valid_option o = true) ∧
    ((∀ o ∈ gW.options, gW.is_valid_option o = true) ∧
      ∀ o ∈ (gW.get_updated_group (List.replicate 90 0) BlackList.new).2.2.1.options,
        (gW.get_updated_group (List.replicate 90 0) BlackList.new).2.2.1.is_valid_option o =
          true) :=
  ⟨⟨gW_new_kenken, candidate_validity.1 2 "3+00.01" gW gW_new_kenken⟩,
   ⟨by decide, candidate_validity.2.2 gW (List.replicate 90 0) BlackList.new (by decide)⟩⟩

/-! ### Claim C4 -/

theorem mem_digit_product {dim : Nat} : ∀ {n : Nat} {t : List Nat},
    t ∈ digit_product dim n ↔ t.length = n ∧ ∀ d ∈ t, 1 ≤ d ∧ d ≤ dim := by
  intro n
  induction n with
  | zero =>
    intro t
    constructor
    · intro h
      simp [digit_product] at h
      subst h
      simp
    · rintro ⟨hl, _⟩
      simp [digit_product, List.length_eq_zero.mp hl]
  | succ n ih =>
    intro t
    simp only [digit_product, List.mem_flatten, List.mem_map]
    constructor
    · rintro ⟨l, ⟨d, hd, rfl⟩, ht⟩
      rcases List.mem_map.mp ht with ⟨t2, ht2, rfl⟩
      obtain ⟨i, hi, rfl⟩ := List.mem_range'.mp hd
      have hmem := ih.mp ht2
      refine ⟨by simp [hmem.1], ?_⟩
      intro x hx
      rcases List.mem_cons.mp hx with rfl | hx
      · omega
      · exact hmem.2 x hx
    · rintro ⟨hl, hbound⟩
      match t with
      | [] => simp at hl
      | d :: t2 =>
        have hd := hbound d (List.mem_cons_self d t2)
        refine ⟨(digit_product dim n).map (fun t => d :: t), ⟨d, ?_, rfl⟩, ?_⟩
        · rw [List.mem_range']
          exact ⟨d - 1, by omega, by omega⟩
        · refine List.mem_map.mpr ⟨t2, ih.mpr ⟨by simpa using hl, ?_⟩, rfl⟩
          intro x hx
          exact hbound x (List.mem_cons_of_mem d hx)

theorem has_line_conflict_iff {ps t : List Nat} :
    has_line_conflict ps t = true ↔ ∃ i j, i < j ∧ j < t.length ∧
      t.getD i 0 = t.getD j 0 ∧ same_line (ps.getD i 0) (ps.getD j 0) := by
  constructor
  · intro h
    rw [has_line_conflict, List.any_eq_true] at h
    obtain ⟨pi, hpi, h2⟩ := h
    rw [List.any_eq_true] at h2
    obtain ⟨di, hdi, h3⟩ := h2
    rw [List.mem_range] at hpi
    obtain ⟨k, hk, rfl⟩ := List.mem_range'.mp hdi
    simp only [Bool.and_eq_true, Bool.or_eq_true, beq_iff_eq] at h3
    exact ⟨pi, pi + 1 + 1 * k, by omega, by omega, h3.1, h3.2⟩
  · rintro ⟨i, j, hij, hj, heq, hsl⟩
    exact has_line_conflict_of_pair hij hj heq hsl

/-- Modelled from the spec's words (claim C4): each operation's arithmetic
predicate, with `nPos` the number of positions of the group. -/
def SpecArith (operation : Char) (result nPos : Nat) (t : List Nat) : Prop :=
  if operation = '+' then result = t.sum
  else if operation = '*' then result = t.prod
  else if operation = '-' then
    nPos = 2 ∧ (result : Int) = |(t.getD 1 0 : Int) - (t.getD 0 0 : Int)|
  else if operation = ':' then
    nPos = 2 ∧ (t.getD 1 0 = result * t.getD 0 0 ∨ t.getD 0 0 = result * t.getD 1 0)
  else if operation = 'c' then nPos = 1 ∧ t.getD 0 0 = result
  else False

theorem arith_ok_iff (op : Char) (res : Nat) (t : List Nat) :
    arith_ok op res t = true ↔ SpecArith op res t.length t := by
  rw [arith_ok.eq_def, SpecArith]
  split
  · rw [if_pos rfl, beq_iff_eq, List.sum_eq_foldl]
  · rw [if_neg (by decide), if_pos rfl, beq_iff_eq, List.prod_eq_foldl]
  · rw [if_neg (by decide), if_neg (by decide), if_pos rfl]
    simp only [Bool.and_eq_true, beq_iff_eq]
    constructor
    · rintro ⟨h1, h2⟩
      refine ⟨h1, ?_⟩
      rw [Int.abs_eq_natAbs]
      exact_mod_cast h2
    · rintro ⟨h1, h2⟩
      refine ⟨h1, ?_⟩
      rw [Int.abs_eq_natAbs] at h2
      exact_mod_cast h2
  · rw [if_neg (by decide), if_neg (by decide), if_neg (by decide), if_pos rfl]
    simp only [Bool.and_eq_true, Bool.or_eq_true, beq_iff_eq]
  · rw [if_neg (by decide), if_neg (by decide), if_neg (by decide), if_neg (by decide),
      if_pos rfl]
    simp only [Bool.and_eq_true, beq_iff_eq]
  · rename_i h1 h2 h3 h4 h5
    rw [if_neg h1, if_neg h2, if_neg h3, if_neg h4, if_neg h5]
    simp

/-- Modelled from the spec's words (claim C4): a tuple is accepted exactly
when it is as long as the position list, draws digits from `1..dimension`,
assigns different digits to indices whose positions share a row or a
column, and satisfies the operation's arithmetic predicate. -/
def SpecKenKenValid (dimension : Nat) (positions : List Nat) (operation : Char)
    (result : Nat) (t : List Nat) : Prop :=
  t.length = positions.length ∧ (∀ d ∈ t, 1 ≤ d ∧ d ≤ dimension) ∧
  (∀ i j, i < t.length → j < t.length → i ≠ j →
    same_line (positions.getD i 0) (positions.getD j 0) → t.getD i 0 ≠ t.getD j 0) ∧
  SpecArith operation result positions.length t

/-- C4: KenKen candidate generation is exact.  The candidate list a
successful `new_kenken` builds holds exactly the tuples accepted by the
specification's predicate over the parsed positions, operation and
result. -/
theorem new_kenken_candidates_exact (dimension : Nat) (s : String) (g : Group)
    (h : Group.new_kenken dimension s = .ok g) (t : List Nat) :
    t ∈ g.options ↔ SpecKenKenValid dimension g.positions g.operation g.result t := by
  rw [(new_kenken_ok h).1, List.mem_filter, mem_digit_product, SpecKenKenValid]
  constructor
  · rintro ⟨⟨hlen, hrange⟩, hvalid⟩
    rw [Group.is_valid_option] at hvalid
    refine ⟨hlen, hrange, valid_line_distinct hvalid, ?_⟩
    have harith := (arith_ok_iff _ _ _).mp (valid_arith hvalid)
    rw [← hlen]
    exact harith
  · rintro ⟨hlen, hrange, hnodist, harith⟩
    refine ⟨⟨hlen, hrange⟩, ?_⟩
    show g.is_valid_option t = true
    rw [Group.is_valid_option, is_valid_option_raw, Bool.and_eq_true]
    constructor
    · cases hconf : has_line_conflict g.positions t with
      | false => rfl
      | true =>
        obtain ⟨i, j, hij, hj, heq, hsl⟩ := has_line_conflict_iff.mp hconf
        exact absurd heq (hnodist i j (by omega) hj (by omega) hsl)
    · rw [arith_ok_iff]
      rw [← hlen] at harith
      exact harith

/-- C4, witness: the exactness equivalence at the concrete parsed group of
`3+00.01` for dimension 2, evaluated at the tuple `[1, 2]`. -/
theorem new_kenken_candidates_exact_witness :
    Group.new_kenken 2 "3+00.01" = .ok gW ∧
    ([1, 2] ∈ gW.options ↔ SpecKenKenValid 2 gW.positions gW.operation gW.result [1, 2]) :=
  ⟨gW_new_kenken, new_kenken_candidates_exact 2 "3+00.01" gW gW_new_kenken [1, 2]⟩

/-! ### Claim C6 -/

theorem build_groups_error {dimension : Nat} : ∀ {strs : List String} {s e : String},
    s ∈ strs → Group.new_kenken dimension s = .error e →
    ∃ e2, build_groups dimension strs = .error e2 := by
  intro strs
  induction strs with
  | nil =>
    intro s e h
    simp at h
  | cons a rest ih =>
    intro s e hmem herr
    rcases List.mem_cons.mp hmem with rfl | hmem
    · rw [build_groups, herr]
      exact ⟨e, rfl⟩
    · rw [build_groups]
      cases hk : Group.new_kenken dimension a with
      | error e3 => exact ⟨e3, rfl⟩
      | ok g =>
        obtain ⟨e2, h2⟩ := ih hmem herr
        rw [h2]
        exact ⟨e2, rfl⟩

/-- C6: Group construction failure semantics.  A successful `new_kenken`
never returns a group with an empty candidate list, and if any group line
of the puzzle definition fails to construct, initialization reports an
error (so the search phase is never reached with such a group). -/
theorem group_construction_failure :
    (∀ (dimension : Nat) (s : String) (g : Group),
      Group.new_kenken dimension s = .ok g → 0 < g.options.length) ∧
    (∀ (p : Puzzle) (strs : List String) (s e : String),
      s ∈ strs → Group.new_kenken p.dimension s = .error e →
      ∃ e2, p.initialize_kenken_from_definition strs = .error e2) := by
  constructor
  · intro dim s g h
    exact (new_kenken_ok h).2.1
  · intro p strs s e hmem herr
    obtain ⟨e2, h2⟩ := build_groups_error hmem herr
    rw [Puzzle.initialize_kenken_from_definition, h2]
    exact ⟨e2, rfl⟩

/-- A dimension-4 puzzle shell with no groups yet. -/
def pC6 : Puzzle := ⟨GameType.KenKen, 4, true, List.replicate 90 0, BlackList.new, []⟩

/-- The group `50+00.01` is unsatisfiable at dimension 4 (two cells cannot
sum to 50), so its construction fails. -/
theorem new_kenken_50_err :
    Group.new_kenken 4 "50+00.01" =
      .error "Can\x27t parse line or no valid options for group found: 50+00.01" := rfl

/-- C6, witness: the parsed group of `3+00.01` has a nonempty candidate
list, and initializing a dimension-4 puzzle from the unsatisfiable line
`50+00.01` fails. -/
theorem group_construction_failure_witness :
    (Group.new_kenken 2 "3+00.01" = .ok gW ∧ 0 < gW.options.length) ∧
    ∃ e2, pC6.initialize_kenken_from_definition ["50+00.01"] = .error e2 :=
  ⟨⟨gW_new_kenken, group_construction_failure.1 2 "3+00.01" gW gW_new_kenken⟩,
   group_construction_failure.2 pC6 ["50+00.01"] "50+00.01" _
     (List.mem_cons_self "50+00.01" []) new_kenken_50_err⟩

/-! ### Claim C10 -/

theorem digit_product_nodup (dimension : Nat) : ∀ n : Nat, (digit_product dimension n).Nodup := by
  intro n
  induction n with
  | zero => simp [digit_product]
  | succ n ih =>
    rw [digit_product, List.nodup_flatten]
    constructor
    · intro l hl
      rcases List.mem_map.mp hl with ⟨d, _, rfl⟩
      exact ih.map (fun t1 t2 h => by injection h)
    · rw [List.pairwise_map]
      have hnd : (List.range' 1 dimension 1).Nodup := by
        rw [List.range'_eq_map_range]
        exact List.Nodup.map (fun a b h => Nat.add_left_cancel h) (List.nodup_range dimension)
      refine hnd.imp ?_
      intro d1 d2 hne x hx1 hx2
      rcases List.mem_map.mp hx1 with ⟨t1, _, rfl⟩
      rcases List.mem_map.mp hx2 with ⟨t2, _, heq⟩
      exact hne (by injection heq.symm)

theorem nodup_getD_ne {α : Type} : ∀ {l : List α}, ∀ (d : α), l.Nodup → 2 ≤ l.length →
    l.getD 0 d ≠ l.getD 1 d := by
  intro l d hnd h2
  match l, h2 with
  | a :: b :: rest, _ =>
    show a ≠ b
    intro h
    exact (List.nodup_cons.mp hnd).1 (h ▸ List.mem_cons_self b rest)

/-- C10: in-bounds access of `positions[1]` during blacklisting.  Freshly
constructed groups have distinct options all as long as the position list;
the filtering step preserves both facts; and under these facts, whenever
the filtering step triggers a blacklist update (group not yet blacklisted,
more than one surviving option, all surviving options using the first
option\x27s digit set), the group has at least two positions, so the read of
`positions[1]` inside `insert_position_black_list` is in bounds. -/
theorem blacklist_insert_in_bounds :
    (∀ (dimension : Nat) (s : String) (g : Group), Group.new_kenken dimension s = .ok g →
      g.options.Nodup ∧ ∀ o ∈ g.options, o.length = g.positions.length) ∧
    (∀ (g : Group) (field : List Nat) (bl : BlackList),
      g.options.Nodup → (∀ o ∈ g.options, o.length = g.positions.length) →
      ((g.get_updated_group field bl).2.2.1.options.Nodup ∧
        ∀ o ∈ (g.get_updated_group field bl).2.2.1.options,
          o.length = (g.get_updated_group field bl).2.2.1.positions.length)) ∧
    (∀ (g : Group) (field : List Nat) (bl : BlackList),
      g.options.Nodup → (∀ o ∈ g.options, o.length = g.positions.length) →
      g.is_already_in_black_list = false →
      1 < (filter_options g field bl).length →
      (bl.check_options_and_update_black_list g.positions (filter_options g field bl)).1 =
        true →
      2 ≤ g.positions.length) := by
  refine ⟨?_, ?_, ?_⟩
  · intro dim s g h
    constructor
    · rw [(new_kenken_ok h).1]
      exact (digit_product_nodup dim g.positions.length).filter _
    · intro o ho
      rw [(new_kenken_ok h).1] at ho
      have := List.mem_filter.mp ho
      exact (mem_digit_product.mp this.1).1
  · intro g field bl hnd hlen
    rw [gug_group_options, gug_group_positions]
    constructor
    · exact (filter_options_sublist g field bl).nodup hnd
    · intro o ho
      exact hlen o (filter_options_mem.mp ho).1
  · intro g field bl hnd hlen hbl hcnt hchk
    by_contra hle
    push_neg at hle
    obtain ⟨o0, o1, rest, heq⟩ :
        ∃ o0 o1 rest, filter_options g field bl = o0 :: o1 :: rest := by
      match hm : filter_options g field bl, hcnt with
      | a :: b :: r, _ => exact ⟨a, b, r, rfl⟩
    have hnd2 : (o0 :: o1 :: rest).Nodup := heq ▸ (filter_options_sublist g field bl).nodup hnd
    have hne : o0 ≠ o1 := by
      intro h
      exact (List.nodup_cons.mp hnd2).1 (h ▸ List.mem_cons_self o1 rest)
    have hm0 : o0 ∈ filter_options g field bl := by
      rw [heq]
      exact List.mem_cons_self o0 (o1 :: rest)
    have hm1 : o1 ∈ filter_options g field bl := by
      rw [heq]
      exact List.mem_cons_of_mem o0 (List.mem_cons_self o1 rest)
    have hl0 : o0.length = g.positions.length := hlen o0 (filter_options_mem.mp hm0).1
    have hl1 : o1.length = g.positions.length := hlen o1 (filter_options_mem.mp hm1).1
    rw [heq, BlackList.check_options_and_update_black_list] at hchk
    split at hchk
    · rename_i hall
      have hsub : ∀ digit ∈ o1, digit ∈ o0.toFinset := by
        intro digit hd
        have h1 := List.all_eq_true.mp hall o1 (by
          simp only [List.drop_succ_cons, List.drop_zero]
          exact List.mem_cons_self o1 rest)
        have h2 := List.all_eq_true.mp h1 digit hd
        simpa using of_decide_eq_true h2
      have hp : g.positions.length = 0 ∨ g.positions.length = 1 := by omega
      rcases hp with hp | hp
      · have h0 : o0 = [] := List.length_eq_zero.mp (by omega)
        have h1 : o1 = [] := List.length_eq_zero.mp (by omega)
        exact hne (h0.trans h1.symm)
      · obtain ⟨a, ha⟩ := List.length_eq_one.mp (by omega : o0.length = 1)
        obtain ⟨b, hb⟩ := List.length_eq_one.mp (by omega : o1.length = 1)
        have hba : b ∈ o0.toFinset := hsub b (hb ▸ List.mem_cons_self b [])
        rw [List.mem_toFinset, ha, List.mem_singleton] at hba
        exact hne (by rw [ha, hb, hba])
    · exact absurd hchk (by simp)

/-- C10, witness: the parsed pair group of `3+00.01` satisfies the option
invariants, and on the empty board its blacklist update does fire, with the
position list indeed of length at least 2. -/
theorem blacklist_insert_in_bounds_witness :
    (Group.new_kenken 2 "3+00.01" = .ok gW ∧
      gW.options.Nodup ∧ (∀ o ∈ gW.options, o.length = gW.positions.length)) ∧
    gW.is_already_in_black_list = false ∧
    1 < (filter_options gW (List.replicate 90 0) BlackList.new).length ∧
    2 ≤ gW.positions.length :=
  ⟨⟨gW_new_kenken, blacklist_insert_in_bounds.1 2 "3+00.01" gW gW_new_kenken⟩,
   by decide, by decide,
   blacklist_insert_in_bounds.2.2 gW (List.replicate 90 0) BlackList.new
     (by decide) (by decide) (by decide) (by decide) (by decide)⟩

/-! ### Claim C5 -/

/-- C5, counterexample: for the group `3+00.01` of the dimension-2 puzzle
`pW` (a row-0 group whose two candidates use the same digit set), one
propagation round alters the exclusion set of position 4 — a cell beyond
the `0..dimension` row segment of a 2-by-2 grid — because the insertion
always spans nine row cells regardless of the dimension. -/
theorem insert_black_list_line_cex :
    pW.dimension = 2 ∧
    (gW.get_updated_group (List.replicate 90 0) BlackList.new).2.2.2 4 ≠ BlackList.new 4 :=
  ⟨rfl, by decide⟩

/-- C5 (amended): exclusion insertion acts exactly on the group\x27s line,
where the line is the fixed nine-cell range of the position grid rather
than the `0..dimension` segment: when `positions[0]` and `positions[1]`
share a column, exactly the cells `col, col+10, …, col+80` below 90 that
are not the group\x27s own positions gain `digits`; otherwise exactly the
cells of the same row with column index below 9 that are not the group\x27s
own positions gain `digits`; every other position keeps its exclusion set
unchanged. -/
theorem insert_black_list_line (bl : BlackList) (positions : List Nat)
    (digits : Finset Nat) (p : Nat) :
    (positions.getD 0 0 % 10 = positions.getD 1 0 % 10 →
      bl.insert_position_black_list positions digits p =
        (if p % 10 = positions.getD 0 0 % 10 ∧ p < 90 ∧ p ∉ positions then
          digits ∪ bl p else bl p)) ∧
    (positions.getD 0 0 % 10 ≠ positions.getD 1 0 % 10 →
      bl.insert_position_black_list positions digits p =
        (if p / 10 = positions.getD 0 0 / 10 ∧ p % 10 < 9 ∧ p ∉ positions then
          digits ∪ bl p else bl p)) := by
  constructor
  · intro hcol
    rw [BlackList.insert_position_black_list, if_pos hcol]
    dsimp only
    have hiff : (p ∈ (col_cells (positions.getD 0 0)).filter fun q => decide (q ∉ positions)) ↔
        (p % 10 = positions.getD 0 0 % 10 ∧ p < 90 ∧ p ∉ positions) := by
      rw [List.mem_filter, mem_col_cells]
      simp [and_assoc]
    rw [if_congr hiff rfl rfl]
  · intro hrow
    rw [BlackList.insert_position_black_list, if_neg hrow]
    dsimp only
    have hiff : (p ∈ (row_cells (positions.getD 0 0)).filter fun q => decide (q ∉ positions)) ↔
        (p / 10 = positions.getD 0 0 / 10 ∧ p % 10 < 9 ∧ p ∉ positions) := by
      rw [List.mem_filter, mem_row_cells]
      simp [and_assoc]
    rw [if_congr hiff rfl rfl]

/-- C5, witness: the row case of the amended equation at the concrete
insertion of `{1, 2}` for the row-0 pair `[0, 1]`, evaluated at cell 4. -/
theorem insert_black_list_line_witness :
    ([0, 1].getD 0 0 % 10 ≠ [0, 1].getD 1 0 % 10) ∧
    BlackList.new.insert_position_black_list [0, 1] ({1, 2} : Finset Nat) 4 =
      (if 4 / 10 = [0, 1].getD 0 0 / 10 ∧ 4 % 10 < 9 ∧ 4 ∉ ([0, 1] : List Nat) then
        ({1, 2} : Finset Nat) ∪ BlackList.new 4 else BlackList.new 4) :=
  ⟨by decide, (insert_black_list_line BlackList.new [0, 1] {1, 2} 4).2 (by decide)⟩

/-! ### Claim C2 -/

/-- C2: propagation-round classification.  Inside one call of
`get_next_solution_step`: a group whose filtered candidate list is empty
makes the scan loop return `none` at once, and a `none` loop makes the
whole step return no new state and no branch group; a group whose filtered
candidate list has exactly one candidate has that candidate applied to the
board, is dropped from the group list, and the scan restarts at index 0
with `min_opt` and `min_opt_pos` reset to the sentinel while the tracked
`ind_min` is kept (a fixpoint loop, not a single pass); and applying a
candidate writes its digits to the board at the group\x27s positions. -/
theorem propagation_round_classification :
    (∀ (sol : List Nat) (bl : BlackList) (groups : List Group) (index im mo mop : Nat),
      index < groups.length →
      ((groups.getD index default).get_updated_group sol bl).1 = 0 →
      solution_loop sol bl groups index im mo mop = none) ∧
    (∀ p : Puzzle, solution_loop p.solution p.block_list p.groups 0 0 1000 1 = none →
      p.get_next_solution_step = .ok (none, none)) ∧
    (∀ (sol : List Nat) (bl : BlackList) (groups : List Group) (index im mo mop : Nat),
      index < groups.length →
      ((groups.getD index default).get_updated_group sol bl).1 = 1 →
      solution_loop sol bl groups index im mo mop =
        solution_loop
          (((groups.getD index default).get_updated_group sol bl).2.2.1.apply_option_to_field
            sol 0)
          ((groups.getD index default).get_updated_group sol bl).2.2.2
          (groups.eraseIdx index) 0 im 1000 1) ∧
    (∀ (g : Group) (sol : List Nat),
      g.positions.Nodup → (∀ q ∈ g.positions, q < sol.length) →
      ∀ i, i < g.positions.length → i < (g.options.getD 0 []).length →
        (g.apply_option_to_field sol 0).getD (g.positions.getD i 0) 0 =
          (g.options.getD 0 []).getD i 0) := by
  refine ⟨?_, ?_, ?_, ?_⟩
  · intro sol bl groups index im mo mop hidx h0
    exact solution_loop_step_zero sol bl groups index im mo mop hidx h0
  · intro p h
    rw [Puzzle.get_next_solution_step, h]
  · intro sol bl groups index im mo mop hidx h1
    exact solution_loop_step_one sol bl groups index im mo mop hidx h1
  · intro g sol hnd hlt i hi hdi
    rw [Group.apply_option_to_field]
    exact write_digits_getD_value g.positions (g.options.getD 0 []) sol hnd hlt i hi hdi

/-- A group whose candidate list is already empty. -/
def gEmptyC2 : Group := ⟨5, '+', [0, 1], [], false, true⟩

/-- A group with exactly one candidate left. -/
def g1C2 : Group := ⟨3, '+', [0, 1], [[1, 2]], true, true⟩

/-- A puzzle holding only the empty-candidate group. -/
def pzC2 : Puzzle := ⟨GameType.KenKen, 2, true, List.replicate 90 0, BlackList.new, [gEmptyC2]⟩

/-- C2, witness: on the empty board the empty-candidate group aborts the
loop and the step of `pzC2` returns `(none, none)`; the single-candidate
group steps to the restarted loop with itself erased; and its candidate
digit lands at its first position. -/
theorem propagation_round_classification_witness :
    (((([gEmptyC2] : List Group).getD 0 default).get_updated_group (List.replicate 90 0)
        BlackList.new).1 = 0 ∧
      solution_loop (List.replicate 90 0) BlackList.new [gEmptyC2] 0 0 1000 1 = none) ∧
    pzC2.get_next_solution_step = .ok (none, none) ∧
    (((([g1C2] : List Group).getD 0 default).get_updated_group (List.replicate 90 0)
        BlackList.new).1 = 1 ∧
      solution_loop (List.replicate 90 0) BlackList.new [g1C2] 0 5 1000 1 =
        solution_loop
          (((([g1C2] : List Group).getD 0 default).get_updated_group (List.replicate 90 0)
              BlackList.new).2.2.1.apply_option_to_field (List.replicate 90 0) 0)
          ((([g1C2] : List Group).getD 0 default).get_updated_group (List.replicate 90 0)
            BlackList.new).2.2.2
          (([g1C2] : List Group).eraseIdx 0) 0 5 1000 1) ∧
    (g1C2.apply_option_to_field (List.replicate 90 0) 0).getD (g1C2.positions.getD 0 0) 0 =
      (g1C2.options.getD 0 []).getD 0 0 :=
  ⟨⟨by decide,
    propagation_round_classification.1 (List.replicate 90 0) BlackList.new [gEmptyC2]
      0 0 1000 1 (by decide) (by decide)⟩,
   propagation_round_classification.2.1 pzC2
     (propagation_round_classification.1 (List.replicate 90 0) BlackList.new [gEmptyC2]
       0 0 1000 1 (by decide) (by decide)),
   ⟨by decide,
    propagation_round_classification.2.2.1 (List.replicate 90 0) BlackList.new [g1C2]
      0 5 1000 1 (by decide) (by decide)⟩,
   propagation_round_classification.2.2.2 g1C2 (List.replicate 90 0) (by decide) (by decide)
     0 (by decide) (by decide)⟩

/-! ### Claim C3 -/

theorem position_option_block_empty (g : Group) (index : Nat) :
    position_option_block g (List.replicate 90 0) BlackList.new index = ∅ := by
  rw [position_option_block, BlackList.get_position_black_list, BlackList.new,
    placed_line_digits]
  have hfilt : (((row_cells (g.positions.getD index 0) ++
      col_cells (g.positions.getD index 0)).map
        (fun i => (List.replicate 90 0).getD i 0)).filter
      (fun digit => decide (0 < digit))) = [] := by
    rw [List.filter_eq_nil_iff]
    intro a ha
    rcases List.mem_map.mp ha with ⟨i, _, rfl⟩
    rw [getD_replicate_zero 90 i]
    simp
  rw [hfilt]
  simp

theorem filter_options_of_block_empty (g : Group) (field : List Nat) (bl : BlackList)
    (h : ∀ index, index < g.positions.length →
      position_option_block g field bl index = ∅) :
    filter_options g field bl = g.options := by
  rw [filter_options]
  have key : ∀ L : List Nat, (∀ i ∈ L, position_option_block g field bl i = ∅) →
      L.foldl
        (fun new_options index =>
          new_options.filter (fun option =>
            decide (option.getD index 0 ∉ position_option_block g field bl index)))
        g.options = g.options := by
    intro L
    induction L with
    | nil => intro _; rfl
    | cons a rest ih =>
      intro hL
      rw [List.foldl_cons]
      have hstep : g.options.filter (fun option => decide (option.getD a 0 ∉
          position_option_block g field bl a)) = g.options := by
        refine List.filter_eq_self.mpr ?_
        intro o _
        rw [hL a (List.mem_cons_self a rest)]
        simp
      rw [hstep, ih (fun i hi => hL i (List.mem_cons_of_mem a hi))]
  exact key (List.range g.positions.length) (fun i hi => h i (List.mem_range.mp hi))

theorem filter_options_empty_board (g : Group) :
    filter_options g (List.replicate 90 0) BlackList.new = g.options :=
  filter_options_of_block_empty g (List.replicate 90 0) BlackList.new
    (fun index _ => position_option_block_empty g index)

/-- A group whose candidate-to-position ratio is 1100, above the 1000
sentinel of the selection loop. -/
def gA : Group := ⟨3, '+', [0, 11], List.replicate 2200 [1, 2], false, true⟩

/-- A group whose candidate-to-position ratio is 1000, still not below the
1000 sentinel, yet strictly better than that of `gA`. -/
def gB : Group := ⟨3, '+', [2, 13], List.replicate 2000 [1, 2], false, true⟩

/-- The puzzle holding `gA` before `gB` on the empty board. -/
def pC3 : Puzzle := ⟨GameType.KenKen, 3, true, List.replicate 90 0, BlackList.new, [gA, gB]⟩

theorem gA_upd : gA.get_updated_group (List.replicate 90 0) BlackList.new =
    (2200, 2, gA, BlackList.new) := by
  rw [Group.get_updated_group]
  dsimp only
  rw [filter_options_empty_board]
  rw [show (!gA.is_already_in_black_list && decide (1 < gA.options.length)) = false from by
    rw [show gA.is_already_in_black_list = true from rfl, Bool.not_true, Bool.false_and]]
  rw [if_neg Bool.false_ne_true]
  rw [show gA.options.length = 2200 from by
    show (List.replicate 2200 ([1, 2] : List Nat)).length = 2200
    rw [List.length_replicate]]
  rw [show gA.positions.length = 2 from rfl]
  rw [show gA.copy_with_new_options gA.options gA.is_already_in_black_list = gA from rfl]

theorem gB_upd : gB.get_updated_group (List.replicate 90 0) BlackList.new =
    (2000, 2, gB, BlackList.new) := by
  rw [Group.get_updated_group]
  dsimp only
  rw [filter_options_empty_board]
  rw [show (!gB.is_already_in_black_list && decide (1 < gB.options.length)) = false from by
    rw [show gB.is_already_in_black_list = true from rfl, Bool.not_true, Bool.false_and]]
  rw [if_neg Bool.false_ne_true]
  rw [show gB.options.length = 2000 from by
    show (List.replicate 2000 ([1, 2] : List Nat)).length = 2000
    rw [List.length_replicate]]
  rw [show gB.positions.length = 2 from rfl]
  rw [show gB.copy_with_new_options gB.options gB.is_already_in_black_list = gB from rfl]

theorem pC3_loop : solution_loop (List.replicate 90 0) BlackList.new [gA, gB] 0 0 1000 1 =
    some (List.replicate 90 0, BlackList.new, [gA, gB], 0) := by
  have hgd0 : ([gA, gB] : List Group).getD 0 default = gA := rfl
  have hgd1 : ([gA, gB] : List Group).getD 1 default = gB := rfl
  rw [solution_loop_step_more_keep (List.replicate 90 0) BlackList.new [gA, gB] 0 0 1000 1
    (by decide) (by rw [hgd0, gA_upd]; decide) (by rw [hgd0, gA_upd]; decide)]
  rw [hgd0, gA_upd]
  show solution_loop (List.replicate 90 0) BlackList.new [gA, gB] 1 0 1000 1 =
    some (List.replicate 90 0, BlackList.new, [gA, gB], 0)
  rw [solution_loop_step_more_keep (List.replicate 90 0) BlackList.new [gA, gB] 1 0 1000 1
    (by decide) (by rw [hgd1, gB_upd]; decide) (by rw [hgd1, gB_upd]; decide)]
  rw [hgd1, gB_upd]
  show solution_loop (List.replicate 90 0) BlackList.new [gA, gB] 2 0 1000 1 =
    some (List.replicate 90 0, BlackList.new, [gA, gB], 0)
  exact solution_loop_end (List.replicate 90 0) BlackList.new [gA, gB] 2 0 1000 1 (by decide)

/-- C3, counterexample: on `pC3` the propagation step returns `gA` as the
branch group although `gB` survives into the returned state with at least
two candidates and a strictly smaller candidate-per-position ratio
(`2000 * 2 < 2200 * 2`): because both ratios are at least the sentinel
`min_opt = 1000`, the comparison never fires and the initial `ind_min = 0`
picks the first group, not the minimum. -/
theorem branch_selection_cex :
    pC3.get_next_solution_step =
      .ok (some
        { game_type := GameType.KenKen
          dimension := 3
          normal_group_direction := true
          solution := List.replicate 90 0
          block_list := BlackList.new
          groups := [gB] },
        some gA) ∧
    gB ∈ pC3.groups ∧
    2 ≤ gB.options.length ∧
    gB.options.length * gA.positions.length < gA.options.length * gB.positions.length := by
  have hns : pC3.get_next_solution_step =
      .ok (some
        { game_type := GameType.KenKen
          dimension := 3
          normal_group_direction := true
          solution := List.replicate 90 0
          block_list := BlackList.new
          groups := [gB] },
        some gA) := by
    rw [Puzzle.get_next_solution_step,
      show pC3.solution = List.replicate 90 0 from rfl,
      show pC3.block_list = BlackList.new from rfl,
      show pC3.groups = [gA, gB] from rfl, pC3_loop]
    rfl
  have hlB : gB.options.length = 2000 := by
    show (List.replicate 2000 ([1, 2] : List Nat)).length = 2000
    rw [List.length_replicate]
  have hlA : gA.options.length = 2200 := by
    show (List.replicate 2200 ([1, 2] : List Nat)).length = 2200
    rw [List.length_replicate]
  have hpA : gA.positions.length = 2 := rfl
  have hpB : gB.positions.length = 2 := rfl
  refine ⟨hns, ?_, ?_, ?_⟩
  · show gB ∈ [gA, gB]
    exact List.mem_cons_of_mem gA (List.mem_cons_self gB [])
  · rw [hlB]
    omega
  · rw [hlB, hlA, hpA, hpB]
    omega

theorem getD_append_length {α : Type} [Inhabited α] :
    ∀ (pre : List α) (g : α) (rest : List α),
      (pre ++ g :: rest).getD pre.length default = g := by
  intro pre
  induction pre with
  | nil => intro g rest; rfl
  | cons a l ih => intro g rest; exact ih g rest

theorem eraseIdx_append_length {α : Type} :
    ∀ (pre : List α) (g : α) (rest : List α),
      (pre ++ g :: rest).eraseIdx pre.length = pre ++ rest := by
  intro pre
  induction pre with
  | nil => intro g rest; rfl
  | cons a l ih =>
    intro g rest
    exact congrArg (fun t => a :: t) (ih g rest)

theorem insertIdx_append_length {α : Type} :
    ∀ (pre : List α) (x : α) (rest : List α),
      (pre ++ rest).insertIdx pre.length x = pre ++ x :: rest := by
  intro pre
  induction pre with
  | nil => intro x rest; rfl
  | cons a l ih =>
    intro x rest
    exact congrArg (fun t => a :: t) (ih x rest)

/-- The guard of the final selection pass of
`Puzzle::get_next_solution_step` (kk_puzzle.rs 151-181): every group of
the list keeps at least two options when updated in turn against the board
and the threaded blacklist. -/
def pass_ok (sol : List Nat) : List Group → BlackList → Bool
  | [], _ => true
  | g :: rest, bl =>
    decide (2 ≤ (g.get_updated_group sol bl).1) &&
      pass_ok sol rest (g.get_updated_group sol bl).2.2.2

/-- The final selection pass of `Puzzle::get_next_solution_step`
(kk_puzzle.rs 170-181) as a standalone recursion: update each group in
turn, thread the blacklist, and track the index of the group whose option
count times the tracked position count beats the tracked option count
times its position count — starting from the caller\x27s sentinel trackers.
Returns the updated groups, the final blacklist and the tracked index. -/
def track_pass (sol : List Nat) : List Group → BlackList → Nat → Nat → Nat → Nat →
    List Group × BlackList × Nat
  | [], bl, _, im, _, _ => ([], bl, im)
  | g :: rest, bl, index, im, mo, mop =>
    if (g.get_updated_group sol bl).1 * mop < mo * (g.get_updated_group sol bl).2.1 then
      ((g.get_updated_group sol bl).2.2.1 ::
          (track_pass sol rest (g.get_updated_group sol bl).2.2.2 (index + 1) index
            (g.get_updated_group sol bl).1 (g.get_updated_group sol bl).2.1).1,
        (track_pass sol rest (g.get_updated_group sol bl).2.2.2 (index + 1) index
          (g.get_updated_group sol bl).1 (g.get_updated_group sol bl).2.1).2)
    else
      ((g.get_updated_group sol bl).2.2.1 ::
          (track_pass sol rest (g.get_updated_group sol bl).2.2.2 (index + 1) im mo mop).1,
        (track_pass sol rest (g.get_updated_group sol bl).2.2.2 (index + 1) im mo mop).2)

theorem solution_loop_final_pass (sol : List Nat) :
    ∀ (rest pre : List Group) (bl : BlackList) (im mo mop : Nat),
      pass_ok sol rest bl = true →
      solution_loop sol bl (pre ++ rest) pre.length im mo mop =
        some (sol, (track_pass sol rest bl pre.length im mo mop).2.1,
          pre ++ (track_pass sol rest bl pre.length im mo mop).1,
          (track_pass sol rest bl pre.length im mo mop).2.2) := by
  intro rest
  induction rest with
  | nil =>
    intro pre bl im mo mop _
    simp only [track_pass]
    rw [List.append_nil]
    exact solution_loop_end sol bl pre pre.length im mo mop (by omega)
  | cons g rest ih =>
    intro pre bl im mo mop hok
    rw [pass_ok, Bool.and_eq_true, decide_eq_true_eq] at hok
    obtain ⟨h2, hrest⟩ := hok
    have hidx : pre.length < (pre ++ g :: rest).length := by
      rw [List.length_append]
      simp
    have hgd : (pre ++ g :: rest).getD pre.length default = g := getD_append_length pre g rest
    have herase : (pre ++ g :: rest).eraseIdx pre.length = pre ++ rest :=
      eraseIdx_append_length pre g rest
    by_cases hcmp :
        (g.get_updated_group sol bl).1 * mop < mo * (g.get_updated_group sol bl).2.1
    · rw [solution_loop_step_more_update sol bl (pre ++ g :: rest) pre.length im mo mop hidx
        (by rw [hgd]; exact h2) (by rw [hgd]; exact hcmp)]
      rw [hgd, herase, insertIdx_append_length]
      have hih := ih (pre ++ [(g.get_updated_group sol bl).2.2.1])
        (g.get_updated_group sol bl).2.2.2 pre.length (g.get_updated_group sol bl).1
        (g.get_updated_group sol bl).2.1 hrest
      simp only [List.append_assoc, List.singleton_append, List.length_append,
        List.length_cons, List.length_nil, Nat.add_zero] at hih
      rw [hih]
      simp only [track_pass]
      rw [if_pos hcmp]
    · rw [solution_loop_step_more_keep sol bl (pre ++ g :: rest) pre.length im mo mop hidx
        (by rw [hgd]; exact h2) (by rw [hgd]; exact hcmp)]
      rw [hgd, herase, insertIdx_append_length]
      have hih := ih (pre ++ [(g.get_updated_group sol bl).2.2.1])
        (g.get_updated_group sol bl).2.2.2 im mo mop hrest
      simp only [List.append_assoc, List.singleton_append, List.length_append,
        List.length_cons, List.length_nil, Nat.add_zero] at hih
      rw [hih]
      simp only [track_pass]
      rw [if_neg hcmp]

/-- C3 (amended): branch-variable selection.  On a final pass (every group
keeps at least two candidates) the scan loop returns the board unchanged,
the threaded blacklist, the updated groups, and the index tracked by the
cross-multiplication comparison `cnt * min_opt_pos < min_opt * pos_cnt`
starting from the caller\x27s trackers — so with the sentinel
`min_opt = 1000`, `min_opt_pos = 1`, `ind_min = 0`, the returned index is
the first group when no group beats the sentinel, not always a ratio
minimizer.  When groups remain and the tracked index is in bounds, the
step removes the tracked group from the returned state and returns it as
the branch group; when groups remain but a restart left a stale tracked
index out of bounds, the step panics (the embedded `.error`); when no
group remains it returns the new state with no branch group. -/
theorem branch_selection :
    (∀ (rest : List Group) (sol : List Nat) (bl : BlackList) (im mo mop : Nat),
      pass_ok sol rest bl = true →
      solution_loop sol bl rest 0 im mo mop =
        some (sol, (track_pass sol rest bl 0 im mo mop).2.1,
          (track_pass sol rest bl 0 im mo mop).1,
          (track_pass sol rest bl 0 im mo mop).2.2)) ∧
    (∀ (p : Puzzle) (sol : List Nat) (bl : BlackList) (new_groups : List Group)
        (ind_min : Nat),
      solution_loop p.solution p.block_list p.groups 0 0 1000 1 =
        some (sol, bl, new_groups, ind_min) →
      0 < new_groups.length → ind_min < new_groups.length →
      p.get_next_solution_step =
        .ok (some
          { p.copy_without_groups with
            solution := sol
            block_list := bl
            groups := new_groups.eraseIdx ind_min },
         some (new_groups.getD ind_min default))) ∧
    (∀ (p : Puzzle) (sol : List Nat) (bl : BlackList) (new_groups : List Group)
        (ind_min : Nat),
      solution_loop p.solution p.block_list p.groups 0 0 1000 1 =
        some (sol, bl, new_groups, ind_min) →
      0 < new_groups.length → ¬ ind_min < new_groups.length →
      p.get_next_solution_step = .error "panic: removal index out of bounds") ∧
    (∀ (p : Puzzle) (sol : List Nat) (bl : BlackList) (new_groups : List Group)
        (ind_min : Nat),
      solution_loop p.solution p.block_list p.groups 0 0 1000 1 =
        some (sol, bl, new_groups, ind_min) →
      new_groups.length = 0 →
      p.get_next_solution_step =
        .ok (some { p.copy_without_groups with solution := sol, block_list := bl },
          none)) := by
  refine ⟨?_, ?_, ?_, ?_⟩
  · intro rest sol bl im mo mop hok
    have h := solution_loop_final_pass sol rest [] bl im mo mop hok
    simp only [List.nil_append, List.length_nil] at h
    exact h
  · intro p sol bl new_groups ind_min heq hlen hind
    rw [Puzzle.get_next_solution_step, heq]
    dsimp only
    rw [if_pos hlen, if_pos hind]
  · intro p sol bl new_groups ind_min heq hlen hind
    rw [Puzzle.get_next_solution_step, heq]
    dsimp only
    rw [if_pos hlen, if_neg hind]
  · intro p sol bl new_groups ind_min heq hlen
    rw [Puzzle.get_next_solution_step, heq]
    dsimp only
    rw [if_neg (by omega)]

/-- A group with 1000 single-digit candidates on cell 55: its ratio
`1000 / 1` never beats the sentinel, so it neither fires the comparison
nor collapses. -/
def aC3 : Group := ⟨7, '+', [55], List.replicate 1000 [7], true, true⟩

/-- A group on cell 0 (row 0) that fires the comparison on the first pass
and collapses once digit 2 is placed on row 0. -/
def bC3 : Group := ⟨3, '+', [0], [[1], [2]], true, true⟩

/-- A constant group writing digit 2 to cell 8 (row 0): it collapses
immediately, restarting the scan with the stale tracked index. -/
def cC3 : Group := ⟨2, 'c', [8], [[2]], true, true⟩

/-- `bC3` after the collapse of `cC3` filtered its digit-2 candidate. -/
def bC3u : Group := ⟨3, '+', [0], [[1]], true, true⟩

/-- The puzzle whose propagation step reaches the out-of-bounds removal. -/
def pC3b : Puzzle := ⟨GameType.KenKen, 9, true, List.replicate 90 0, BlackList.new,
  [aC3, bC3, cC3]⟩

/-- The board after `cC3` collapses. -/
def bdC1 : List Nat := (List.replicate 90 0).set 8 2

/-- The board after `bC3` collapses as well. -/
def bdC2 : List Nat := ((List.replicate 90 0).set 8 2).set 0 1

theorem aC3_upd (field : List Nat)
    (h : position_option_block aC3 field BlackList.new 0 = ∅) :
    aC3.get_updated_group field BlackList.new = (1000, 1, aC3, BlackList.new) := by
  rw [Group.get_updated_group]
  dsimp only
  rw [filter_options_of_block_empty aC3 field BlackList.new
    (fun i hi => by
      have hl : aC3.positions.length = 1 := rfl
      have hi0 : i = 0 := by omega
      rw [hi0]
      exact h)]
  rw [show (!aC3.is_already_in_black_list && decide (1 < aC3.options.length)) = false from by
    rw [show aC3.is_already_in_black_list = true from rfl, Bool.not_true, Bool.false_and]]
  rw [if_neg Bool.false_ne_true]
  rw [show aC3.options.length = 1000 from by
    show (List.replicate 1000 ([7] : List Nat)).length = 1000
    rw [List.length_replicate]]
  rw [show aC3.positions.length = 1 from rfl]
  rw [show aC3.copy_with_new_options aC3.options aC3.is_already_in_black_list = aC3 from rfl]

theorem aC3_block0 : position_option_block aC3 (List.replicate 90 0) BlackList.new 0 = ∅ := by
  decide

theorem aC3_block1 : position_option_block aC3 bdC1 BlackList.new 0 = ∅ := by decide

theorem aC3_block2 : position_option_block aC3 bdC2 BlackList.new 0 = ∅ := by decide

theorem bC3_upd0 : bC3.get_updated_group (List.replicate 90 0) BlackList.new =
    (2, 1, bC3, BlackList.new) := rfl

theorem bC3_upd1 : bC3.get_updated_group bdC1 BlackList.new =
    (1, 1, bC3u, BlackList.new) := rfl

theorem cC3_upd0 : cC3.get_updated_group (List.replicate 90 0) BlackList.new =
    (1, 1, cC3, BlackList.new) := rfl

/-- A full run of the scan loop over `pC3b`\x27s groups: the comparison fires
at index 1, `cC3` then collapses and restarts the scan with the stale
`ind_min = 1`, `bC3` collapses on the second pass, and the final pass over
the single remaining group fires nothing — the loop ends with one group
and the out-of-bounds tracked index 1. -/
theorem pC3b_loop :
    solution_loop (List.replicate 90 0) BlackList.new [aC3, bC3, cC3] 0 0 1000 1 =
      some (bdC2, BlackList.new, [aC3], 1) := by
  rw [solution_loop_step_more_keep (List.replicate 90 0) BlackList.new [aC3, bC3, cC3]
    0 0 1000 1 (by decide)
    (by rw [show ([aC3, bC3, cC3] : List Group).getD 0 default = aC3 from rfl,
      aC3_upd _ aC3_block0]; decide)
    (by rw [show ([aC3, bC3, cC3] : List Group).getD 0 default = aC3 from rfl,
      aC3_upd _ aC3_block0]; decide)]
  rw [show ([aC3, bC3, cC3] : List Group).getD 0 default = aC3 from rfl,
    aC3_upd _ aC3_block0]
  show solution_loop (List.replicate 90 0) BlackList.new [aC3, bC3, cC3] 1 0 1000 1 =
    some (bdC2, BlackList.new, [aC3], 1)
  rw [solution_loop_step_more_update (List.replicate 90 0) BlackList.new [aC3, bC3, cC3]
    1 0 1000 1 (by decide)
    (by rw [show ([aC3, bC3, cC3] : List Group).getD 1 default = bC3 from rfl, bC3_upd0])
    (by rw [show ([aC3, bC3, cC3] : List Group).getD 1 default = bC3 from rfl, bC3_upd0]; decide)]
  rw [show ([aC3, bC3, cC3] : List Group).getD 1 default = bC3 from rfl, bC3_upd0]
  show solution_loop (List.replicate 90 0) BlackList.new [aC3, bC3, cC3] 2 1 2 1 =
    some (bdC2, BlackList.new, [aC3], 1)
  rw [solution_loop_step_one (List.replicate 90 0) BlackList.new [aC3, bC3, cC3]
    2 1 2 1 (by decide)
    (by rw [show ([aC3, bC3, cC3] : List Group).getD 2 default = cC3 from rfl, cC3_upd0])]
  rw [show ([aC3, bC3, cC3] : List Group).getD 2 default = cC3 from rfl, cC3_upd0]
  show solution_loop bdC1 BlackList.new [aC3, bC3] 0 1 1000 1 =
    some (bdC2, BlackList.new, [aC3], 1)
  rw [solution_loop_step_more_keep bdC1 BlackList.new [aC3, bC3] 0 1 1000 1 (by decide)
    (by rw [show ([aC3, bC3] : List Group).getD 0 default = aC3 from rfl,
      aC3_upd _ aC3_block1]; decide)
    (by rw [show ([aC3, bC3] : List Group).getD 0 default = aC3 from rfl,
      aC3_upd _ aC3_block1]; decide)]
  rw [show ([aC3, bC3] : List Group).getD 0 default = aC3 from rfl, aC3_upd _ aC3_block1]
  show solution_loop bdC1 BlackList.new [aC3, bC3] 1 1 1000 1 =
    some (bdC2, BlackList.new, [aC3], 1)
  rw [solution_loop_step_one bdC1 BlackList.new [aC3, bC3] 1 1 1000 1 (by decide)
    (by rw [show ([aC3, bC3] : List Group).getD 1 default = bC3 from rfl, bC3_upd1])]
  rw [show ([aC3, bC3] : List Group).getD 1 default = bC3 from rfl, bC3_upd1]
  show solution_loop bdC2 BlackList.new [aC3] 0 1 1000 1 =
    some (bdC2, BlackList.new, [aC3], 1)
  rw [solution_loop_step_more_keep bdC2 BlackList.new [aC3] 0 1 1000 1 (by decide)
    (by rw [show ([aC3] : List Group).getD 0 default = aC3 from rfl,
      aC3_upd _ aC3_block2]; decide)
    (by rw [show ([aC3] : List Group).getD 0 default = aC3 from rfl,
      aC3_upd _ aC3_block2]; decide)]
  rw [show ([aC3] : List Group).getD 0 default = aC3 from rfl, aC3_upd _ aC3_block2]
  show solution_loop bdC2 BlackList.new [aC3] 1 1 1000 1 =
    some (bdC2, BlackList.new, [aC3], 1)
  exact solution_loop_end bdC2 BlackList.new [aC3] 1 1 1000 1 (by decide)

/-- C3, witness: the single-group final pass over `gW` tracks index 0 and
the step removes and returns that group; the group-free state of `uW`
yields a step with no branch group; and the stale tracked index of `pC3b`
makes the step take the panic path. -/
theorem branch_selection_witness :
    pass_ok (List.replicate 90 0) [gW] BlackList.new = true ∧
    solution_loop (List.replicate 90 0) BlackList.new [gW] 0 0 1000 1 =
      some (List.replicate 90 0, blW, [gWu], 0) ∧
    pW.get_next_solution_step =
      .ok (some
        { pW.copy_without_groups with
          solution := List.replicate 90 0
          block_list := blW
          groups := ([gWu] : List Group).eraseIdx 0 },
       some (([gWu] : List Group).getD 0 default)) ∧
    pC3b.get_next_solution_step = .error "panic: removal index out of bounds" ∧
    uW.get_next_solution_step =
      .ok (some
        { uW.copy_without_groups with
          solution := List.replicate 90 0
          block_list := blW },
       none) :=
  ⟨by decide,
   branch_selection.1 [gW] (List.replicate 90 0) BlackList.new 0 1000 1 (by decide),
   branch_selection.2.1 pW (List.replicate 90 0) blW [gWu] 0
     (branch_selection.1 [gW] (List.replicate 90 0) BlackList.new 0 1000 1 (by decide))
     (by decide) (by decide),
   branch_selection.2.2.1 pC3b bdC2 BlackList.new [aC3] 1 pC3b_loop (by decide) (by decide),
   branch_selection.2.2.2 uW (List.replicate 90 0) blW [] 0
     (branch_selection.1 [] (List.replicate 90 0) blW 0 1000 1 rfl) rfl⟩

end KenkenSolver
